import Mathlib

/-!
Shallow embedding of `src/prefix_cache.rs` from graydon/art-rs, restricted to
the code the claims are about: the `MarkedElt` entry type, the
`DenseHashTable` open-addressing hash table, the `HashSetPrefixCache`
(`dense_hash_set::HashSetPrefixCache`) built on it, and the `NullBuckets`
disabled cache.

Modelling conventions:
- release-build semantics: `debug_assert!` checks are compiled out and
  integer overflow wraps (usize arithmetic is reduced `% 2^64` exactly where
  the source performs it);
- machine words (`usize`, `u64`) are `Nat` reduced `% 2^64` where overflow
  can matter; byte slices `&[u8]` are `List Nat` whose elements are reduced
  `% 256` where they are read;
- a Rust panic (slice index out of bounds, `Option::unwrap` on `None`,
  non-termination cut off by fuel) is modelled by `Option.none` at the
  operation's result type; `some` means the call returns normally;
- raw `*mut T` pointers into the bucket vector are modelled by indices into
  the bucket list;
- `DenseHashTable::insert` and `DenseHashTable::grow` are mutually recursive
  in the source (grow reinserts extracted entries via insert); the embedding
  makes them structurally recursive on an explicit fuel argument, `none`
  standing for fuel exhaustion.  Fuel `3` is enough for any table whose
  occupancy satisfies the structure's invariant, since a reinsert performed
  by `grow` never triggers a nested `grow` there.
- the platform is 64-bit little-endian (x86-64): `usize` is 64 bits wide and
  `u64::hash` feeds the FNV hasher the key's little-endian bytes.
-/

namespace Art

/-- Number of values of `usize`/`u64` on the 64-bit target. -/
def USIZE : Nat := 2 ^ 64

/-- Modelled from the spec: `MarkedPtr<T>` from `art_internal` (not part of
the sources given).  The spec describes it as a machine-word-sized tagged
pointer: `Null` is the zero word, `from_leaf` tags a leaf address with the
low tag bit, equality is raw-word equality, and the reserved tombstone
sentinel `!0` "can never equal a real pointer value".  The model is the raw
word itself. -/
structure MarkedPtr where
  raw : Nat
deriving DecidableEq, Repr

/-- Modelled from the spec: the null `MarkedPtr` is the zero word. -/
def MarkedPtr.null : MarkedPtr := ⟨0⟩

/-- Modelled from the spec: `MarkedPtr::from_leaf` tags the address with the
low tag bit (so `from_leaf(!0)` is the full-ones word `!0`). -/
def MarkedPtr.from_leaf (addr : Nat) : MarkedPtr := ⟨(addr % USIZE) ||| 1⟩

/-- Modelled from the spec: a `MarkedPtr` is null iff its raw word is 0. -/
def MarkedPtr.is_null (p : MarkedPtr) : Bool := p.raw == 0

/-- Modelled from the spec: `MarkedPtr::raw_eq` compares the raw word with a
given `usize`. -/
def MarkedPtr.raw_eq (p : MarkedPtr) (u : Nat) : Bool := p.raw == u

/-- `const MARKED_TOMBSTONE: usize = !0` (all-ones word). -/
def MARKED_TOMBSTONE : Nat := USIZE - 1

/-- `struct MarkedElt<T> { prefix: u64, ptr: MarkedPtr<T> }`.  The `prefix`
field is called `pfx` here (`prefix` is not a usable identifier in Lean). -/
structure MarkedElt where
  pfx : Nat
  ptr : MarkedPtr
deriving DecidableEq, Repr

/-- `DHTE::null()` for `MarkedElt`: `{ prefix: 0, ptr: MarkedPtr::null() }`. -/
def MarkedElt.null : MarkedElt := ⟨0, MarkedPtr.null⟩

/-- `DHTE::tombstone()` for `MarkedElt`:
`{ prefix: 0, ptr: MarkedPtr::from_leaf(MARKED_TOMBSTONE as *mut T) }`. -/
def MarkedElt.tombstone : MarkedElt := ⟨0, MarkedPtr.from_leaf MARKED_TOMBSTONE⟩

/-- `DHTE::is_null` for `MarkedElt`: `self.ptr.is_null()`. -/
def MarkedElt.is_null (e : MarkedElt) : Bool := e.ptr.is_null

/-- `DHTE::is_tombstone` for `MarkedElt`: `self.ptr.raw_eq(MARKED_TOMBSTONE)`. -/
def MarkedElt.is_tombstone (e : MarkedElt) : Bool := e.ptr.raw_eq MARKED_TOMBSTONE

/-- `DHTE::key` for `MarkedElt`: the `prefix` field. -/
def MarkedElt.key (e : MarkedElt) : Nat := e.pfx

/-- Big-endian read of a byte list (`BigEndian::read_u64` on an 8-byte
array); each element is reduced `% 256` as a `u8`. -/
def beBytes (l : List Nat) : Nat := l.foldl (fun a b => a * 256 + b % 256) 0

/-- `fn read_u64(bs: &[u8]) -> u64`: copies the first `min(bs.len(), 8)`
bytes into a zeroed 8-byte array and reads it big-endian.  The expression
`&bs[0]` indexes the slice, so the empty slice panics (index out of
bounds) — modelled by `none`.  The `debug_assert!(bs.len() <= 8)` is
compiled out in release builds; longer slices are truncated. -/
def read_u64 (bs : List Nat) : Option Nat :=
  if bs.isEmpty then none
  else some (beBytes (bs.take 8 ++ List.replicate (8 - min bs.length 8) 0))

/-- FNV-1a 64-bit offset basis (the initial state of `FnvHasher::default()`). -/
def FNV_OFFSET : Nat := 0xcbf29ce484222325

/-- FNV-1a 64-bit prime. -/
def FNV_PRIME : Nat := 0x100000001b3

/-- One FNV-1a step: xor in a byte, multiply by the prime, wrap to 64 bits. -/
def fnv1aStep (h b : Nat) : Nat := ((h ^^^ b % 256) * FNV_PRIME) % USIZE

/-- The hash `seek` computes for a `u64` key: `k.hash(&mut FnvHasher::default())`
writes the key's 8 native-endian (little-endian on x86-64) bytes into the
FNV-1a hasher, and `finish() as usize` returns the 64-bit state. -/
def fnvHash64 (k : Nat) : Nat :=
  (List.range 8).foldl (fun h i => fnv1aStep h (k >>> (8 * i))) FNV_OFFSET

/-- `struct DenseHashTable<T> { buckets: Vec<T>, len: usize, set: usize }`,
specialised to `T = MarkedElt` as `HashSetPrefixCache` instantiates it. -/
structure DenseHashTable where
  buckets : List MarkedElt
  len : Nat
  set : Nat
deriving DecidableEq, Repr

/-- `fn next_probe(hash: usize, i: usize) -> usize { hash + (i + i * i) / 2 }`
(wrapping usize arithmetic). -/
def next_probe (hash i : Nat) : Nat := (hash + (i + i * i) / 2) % USIZE

/-- The slot examined at attempt `t`: `next_probe(hash, t)` masked by
`buckets.len() - 1` (`ix &= l - 1` in the source). -/
def probeSlot (hash l t : Nat) : Nat := next_probe hash t &&& (l - 1)

/-- The body of `seek`'s probe loop.  Iteration `times` examines slot
`probeSlot hash l times` (the source keeps `ix` across iterations; it
re-masks `ix &= l - 1` at the top and recomputes `ix = next_probe(hash,
times)` at the bottom, which per iteration is the expression used here).
`tomb` is the `tombstone` variable (first tombstone seen), `rem` the number
of loop iterations left (`l - times`).  Note the source's else-if chain: a
tombstone that is not the first one recorded falls through to the
`bucket.is_null() || bucket.key() == k` test, comparing the tombstone's key
field (which is 0). -/
def seekAux (B : List MarkedElt) (k hash l : Nat) :
    Nat → Option Nat → Nat → Option Nat × Option Nat
  | _, tomb, 0 => (tomb, none)
  | times, tomb, rem + 1 =>
    let ix := probeSlot hash l times
    let b := B.getD ix MarkedElt.null
    if tomb.isNone && b.is_tombstone then
      seekAux B k hash l (times + 1) (some ix) rem
    else if b.is_null || b.key == k then
      (tomb, some ix)
    else
      seekAux B k hash l (times + 1) tomb rem

/-- `DenseHashTable::seek`: walks at most `buckets.len()` probes and returns
(first tombstone index, matching-or-null terminal index). -/
def DenseHashTable.seek (st : DenseHashTable) (k : Nat) : Option Nat × Option Nat :=
  seekAux st.buckets k (fnvHash64 k) st.buckets.length 0 none st.buckets.length

/-- `DenseHashTable::new()`. -/
def DenseHashTable.new : DenseHashTable := ⟨[], 0, 0⟩

/-- `DenseHashTable::lookup`: empty table misses; otherwise seek and return
the terminal bucket unless it is null. -/
def DenseHashTable.lookup (st : DenseHashTable) (k : Nat) : Option MarkedElt :=
  if st.buckets.length = 0 then none
  else
    match (st.seek k).2 with
    | none => none
    | some ix =>
      let b := st.buckets.getD ix MarkedElt.null
      if b.is_null then none else some b

/-- `DenseHashTable::delete`: empty table is a no-op; otherwise seek, and if
the terminal bucket is non-null swap in a tombstone, decrement `len`
(wrapping usize subtraction) and return the removed entry. -/
def DenseHashTable.delete (st : DenseHashTable) (k : Nat) :
    DenseHashTable × Option MarkedElt :=
  if st.buckets.length = 0 then (st, none)
  else
    match (st.seek k).2 with
    | none => (st, none)
    | some ix =>
      let b := st.buckets.getD ix MarkedElt.null
      if b.is_null then (st, none)
      else
        ({ st with buckets := st.buckets.set ix MarkedElt.tombstone,
                   len := (st.len + (USIZE - 1)) % USIZE }, some b)

/-- The `(self.set as i64)` style casts in `grow`: reinterpret a `usize`
value as `i64` (two's complement). -/
def usizeAsI64 (n : Nat) : Int :=
  if n % USIZE < 2 ^ 63 then ((n % USIZE : Nat) : Int)
  else ((n % USIZE : Nat) : Int) - (USIZE : Int)

/-- Wrapping `i64` arithmetic: reduce an integer into `[-2^63, 2^63)`. -/
def i64Wrap (z : Int) : Int := (z + 2 ^ 63) % 2 ^ 64 - 2 ^ 63

/-- The body of `DenseHashTable::grow`, with the `insert` used to reinsert
the extracted entries passed as a parameter `ins` (in the source `grow` and
`insert` are mutually recursive; the explicit fuel below ties the knot
structurally).  Empty table: push one null bucket and return.  Otherwise, if
`buckets.len() < 32` or
`(set as i64) - (len as i64) < buckets.len() as i64 / 4`
(`/` on `i64` truncates toward zero; the dividend here is the nonnegative
bucket count, where truncating and flooring agree), double the bucket array
by appending nulls; in both cases scan the first `old_len` (original length)
slots, extract the live entries in slot order, overwrite tombstones with
nulls (after the scan every one of the `buckets2.length` slots is null,
which is what `cleared` states), reset `set` and `len` to 0, and reinsert
every extracted entry via `ins` (each reinsert's `Result` value is discarded
in release builds; a panic still propagates). -/
def growWith
    (ins : DenseHashTable → MarkedElt → Option (DenseHashTable × Option MarkedElt))
    (st : DenseHashTable) : Option DenseHashTable :=
  if st.buckets.length = 0 then
    some { st with buckets := st.buckets ++ [MarkedElt.null] }
  else
    let doubled := st.buckets.length < 32 ||
      i64Wrap (usizeAsI64 st.set - usizeAsI64 st.len) <
        usizeAsI64 st.buckets.length / 4
    let old_len := st.buckets.length
    let buckets2 :=
      if doubled then st.buckets ++ List.replicate st.buckets.length MarkedElt.null
      else st.buckets
    let v := (buckets2.take old_len).filter
      (fun e => !e.is_null && !e.is_tombstone)
    let cleared := List.replicate buckets2.length MarkedElt.null
    v.foldlM (fun acc e => do
        let r ← ins acc e
        some r.1)
      ⟨cleared, 0, 0⟩

/-- `DenseHashTable::insert` (fuelled; `none` = panic or fuel exhaustion).
If `set >= buckets.len() / 2`, grow first (the `growWith` call below is
`DenseHashTable.grow (fuel + 1)`, see `DenseHashTable.grow` and
`insert_succ`).  Then seek; the terminal slot is `b_opt.unwrap()` (panic if
seek found neither a match nor a null slot).  A null terminal means the key
is absent: write into the first tombstone on the probe chain if any (leaving
`set` unchanged), else into the null terminal (incrementing `set`);
increment `len` either way and return `Ok(())` (modelled `some (table,
none)`).  A non-null terminal means the key is present: swap the new entry
in and return `Err(old)` (modelled `some (table, some old)`).  The source
destructures one `seek` call as `let (tmb, b_opt) = self.seek(t.key())`;
`seek` is pure, so the two component reads below reference the same pair.
The source's `debug_assert!(!t.is_null())` and
`debug_assert!(!t.is_tombstone())` are compiled out in release builds. -/
def DenseHashTable.insert : Nat → DenseHashTable → MarkedElt →
    Option (DenseHashTable × Option MarkedElt)
  | 0, _, _ => none
  | fuel + 1, st0, t =>
    (if st0.set ≥ st0.buckets.length / 2 then
        growWith (DenseHashTable.insert fuel) st0
      else
        some st0).bind (fun st =>
      match (st.seek t.key).2 with
      | none => none
      | some ix =>
        if (st.buckets.getD ix MarkedElt.null).is_null then
          match (st.seek t.key).1 with
          | some tix =>
            some ({ st with buckets := st.buckets.set tix t,
                            len := (st.len + 1) % USIZE }, none)
          | none =>
            some ({ st with buckets := st.buckets.set ix t,
                            set := (st.set + 1) % USIZE,
                            len := (st.len + 1) % USIZE }, none)
        else
          some ({ st with buckets := st.buckets.set ix t },
            some (st.buckets.getD ix MarkedElt.null)))

/-- `DenseHashTable::grow` (fuelled): `growWith` reinserting through
`DenseHashTable.insert` at one fuel level down. -/
def DenseHashTable.grow : Nat → DenseHashTable → Option DenseHashTable
  | 0, _ => none
  | fuel + 1, st => growWith (DenseHashTable.insert fuel) st

/-- `pub struct HashSetPrefixCache<T>(DenseHashTable<MarkedElt<T>>)`; the
single tuple field `.0` is called `tbl`. -/
structure HashSetPrefixCache where
  tbl : DenseHashTable
deriving DecidableEq, Repr

/-- `HashSetPrefixCache::new()`. -/
def HashSetPrefixCache.new : HashSetPrefixCache := ⟨DenseHashTable.new⟩

/-- `HashSetPrefixCache::lookup`: derive the key with `read_u64` (panics on
the empty slice, hence the outer `Option`), look it up in the table, project
the stored pointer.  The `cfg(debug_assertions)` verification block is
compiled out in release builds. -/
def HashSetPrefixCache.lookup (c : HashSetPrefixCache) (bs : List Nat) :
    Option (Option MarkedPtr) :=
  match read_u64 bs with
  | none => none
  | some k => some ((c.tbl.lookup k).map (fun e => e.ptr))

/-- `HashSetPrefixCache::insert`: derive the key; a null pointer is a delete
on the table, otherwise insert `MarkedElt { prefix, ptr }` and discard the
result.  (`debug_assert!(self.lookup(bs).is_none())` after a delete is
compiled out in release builds.) -/
def HashSetPrefixCache.insert (fuel : Nat) (c : HashSetPrefixCache)
    (bs : List Nat) (p : MarkedPtr) : Option HashSetPrefixCache :=
  match read_u64 bs with
  | none => none
  | some k =>
    if p.is_null then some ⟨(c.tbl.delete k).1⟩
    else
      match DenseHashTable.insert fuel c.tbl ⟨k, p⟩ with
      | none => none
      | some (t, _) => some ⟨t⟩

/-- `HashSetPrefixCache::replace`: like `insert` but propagates the previous
entry: delete's removed entry for a null pointer, the table insert's
`Err(old)` for a non-null one, projected to the stored pointer. -/
def HashSetPrefixCache.replace (fuel : Nat) (c : HashSetPrefixCache)
    (bs : List Nat) (p : MarkedPtr) :
    Option (HashSetPrefixCache × Option MarkedPtr) :=
  match read_u64 bs with
  | none => none
  | some k =>
    if p.is_null then
      let r := c.tbl.delete k
      some (⟨r.1⟩, r.2.map (fun e => e.ptr))
    else
      match DenseHashTable.insert fuel c.tbl ⟨k, p⟩ with
      | none => none
      | some (t, res) => some (⟨t⟩, res.map (fun e => e.ptr))

/-- `pub struct NullBuckets<T>(PhantomData<T>)`: the disabled cache. -/
structure NullBuckets where
deriving DecidableEq, Repr

/-- `NullBuckets::new()`. -/
def NullBuckets.new : NullBuckets := ⟨⟩

/-- `NullBuckets::lookup`: always a miss, for any byte slice. -/
def NullBuckets.lookup (_ : NullBuckets) (_ : List Nat) : Option MarkedPtr :=
  none

/-- `NullBuckets::insert`: a no-op. -/
def NullBuckets.insert (c : NullBuckets) (_ : List Nat) (_ : MarkedPtr) :
    NullBuckets := c

/-- `NullBuckets` uses the trait's default `replace`: call `insert` (a
no-op) and return `None`. -/
def NullBuckets.replace (c : NullBuckets) (bs : List Nat) (p : MarkedPtr) :
    NullBuckets × Option MarkedPtr := (c.insert bs p, none)

/-! Derived notions used to state the claims. -/

/-- The key-derivation algorithm as the specification words it: take up to
the first 8 bytes of the slice, treat missing trailing bytes as zero, and
read the 8 bytes as a big-endian unsigned integer. -/
def specKey (bs : List Nat) : Nat :=
  beBytes (bs.take 8) * 256 ^ (8 - min bs.length 8)

/-- The live entries of a table, in slot order. -/
def liveElts (st : DenseHashTable) : List MarkedElt :=
  st.buckets.filter (fun e => !e.is_null && !e.is_tombstone)

/-- The number of occupied (non-null, i.e. live or tombstone) slots. -/
def countOccupied (B : List MarkedElt) : Nat := B.countP (fun e => !e.is_null)

/-- The number of live slots. -/
def countLive (B : List MarkedElt) : Nat :=
  B.countP (fun e => !e.is_null && !e.is_tombstone)

/-- A caller-supplied reference as the tree hands them to the cache: a
non-null machine word that is not the reserved tombstone sentinel `!0`. -/
def GoodPtr (p : MarkedPtr) : Prop :=
  0 < p.raw ∧ p.raw + 1 < USIZE

/-- Cache states reachable from `HashSetPrefixCache::new()` through the
public operations (`lookup` does not change state), with the caller
obligation that every supplied reference is either null (a removal request)
or a real, non-sentinel pointer. -/
inductive Reach : HashSetPrefixCache → Prop where
  | new : Reach HashSetPrefixCache.new
  | insert : ∀ {c c' : HashSetPrefixCache} {fuel : Nat} {bs : List Nat}
      {p : MarkedPtr}, Reach c → (p.is_null = true ∨ GoodPtr p) →
      HashSetPrefixCache.insert fuel c bs p = some c' → Reach c'
  | replace : ∀ {c c' : HashSetPrefixCache} {fuel : Nat} {bs : List Nat}
      {p : MarkedPtr} {out : Option MarkedPtr}, Reach c →
      (p.is_null = true ∨ GoodPtr p) →
      HashSetPrefixCache.replace fuel c bs p = some (c', out) → Reach c'

/-- The representation invariant of `DenseHashTable` used as a hypothesis by
the totality and grow/compact theorems: the table is either the fresh empty
table, or its bucket count is a power of two no larger than `2^62` (a `Vec`
of 16-byte entries cannot exceed `isize::MAX` bytes), `set` counts the
occupied (non-null) slots, `len` counts the live slots, and occupancy never
exceeds half the capacity by more than the one overshoot slot the
grow-then-write discipline allows (`2 * set ≤ buckets.len() + 2`). -/
def TableInv (st : DenseHashTable) : Prop :=
  (st.buckets = [] ∧ st.set = 0 ∧ st.len = 0) ∨
  ((∃ e, e ≤ 62 ∧ st.buckets.length = 2 ^ e) ∧
    st.set = countOccupied st.buckets ∧
    st.len = countLive st.buckets ∧
    2 * st.set ≤ st.buckets.length + 2)

/-- Entry `e` is stored in the table and seeking its key terminates exactly
at its slot. -/
def Findable (st : DenseHashTable) (e : MarkedElt) : Prop :=
  ∃ w, w < st.buckets.length ∧ (st.seek e.key).2 = some w ∧
    st.buckets.getD w MarkedElt.null = e

/-- No two live entries of the table carry the same key. -/
def LiveKeysDistinct (st : DenseHashTable) : Prop :=
  (liveElts st).Pairwise (fun a b => a.key ≠ b.key)

/-- A bucket entry the sentinel discipline allows: the canonical null entry,
the canonical tombstone entry, or a live entry holding a caller-supplied
(non-null, non-sentinel) reference. -/
def OkElt (x : MarkedElt) : Prop :=
  x = MarkedElt.null ∨ x = MarkedElt.tombstone ∨ GoodPtr x.ptr

/-- Every slot is the canonical null entry, the canonical tombstone entry,
or a live entry holding a caller-supplied (non-null, non-sentinel)
reference. -/
def PtrsOk (st : DenseHashTable) : Prop :=
  ∀ e ∈ st.buckets, e = MarkedElt.null ∨ e = MarkedElt.tombstone ∨ GoodPtr e.ptr

/-! Concrete scenarios (byte slices are 8-byte big-endian encodings, so the
slice `slice8 n` derives the table key `n`). -/

/-- The 8-byte big-endian slice of a small key `n < 256`. -/
def slice8 (n : Nat) : List Nat := [0, 0, 0, 0, 0, 0, 0, n]

/-- Run a list of `insert` calls (prefix, reference) on a fresh cache. -/
def runInserts (ops : List (List Nat × MarkedPtr)) : Option HashSetPrefixCache :=
  ops.foldl (fun c op => c.bind (fun c => HashSetPrefixCache.insert 8 c op.1 op.2))
    (some HashSetPrefixCache.new)

/-- A reachable state with two tombstones heading key 0's probe chain: five
inserts of the distinct keys 16, 3, 1, 2, 4 grow the table to 16 buckets
(occupancy 5 < 16/2, so the next insert does not resize), and deleting keys
16 and 3 leaves tombstones exactly at slots `fnv(0) % 16` and
`(fnv(0) + 1) % 16`, the first two probes of key 0 (fnv residues mod 16:
key 0 ↦ 5, key 16 ↦ 5, key 3 ↦ 6, key 1 ↦ 4, key 2 ↦ 7, key 4 ↦ 1). -/
def opsChurn : List (List Nat × MarkedPtr) :=
  [ (slice8 16, ⟨100⟩), (slice8 3, ⟨102⟩), (slice8 1, ⟨104⟩),
    (slice8 2, ⟨106⟩), (slice8 4, ⟨108⟩),
    (slice8 16, MarkedPtr.null), (slice8 3, MarkedPtr.null) ]

/-- `opsChurn` followed by `insert(key 0, live)` then `insert(key 0, Null)`:
the exact delete-then-miss scenario of the claims, run from the churned
state. -/
def opsChurnDel : List (List Nat × MarkedPtr) :=
  opsChurn ++ [(slice8 0, ⟨110⟩), (slice8 0, MarkedPtr.null)]

/-- Two inserts of keys of opposite hash parity fill a 2-bucket table; the
two deletes turn both slots into tombstones with `len = 0`; the final
`insert(key 0, Null)` is a removal request for key 0. -/
def opsWrap : List (List Nat × MarkedPtr) :=
  [ (slice8 1, ⟨100⟩), (slice8 2, ⟨102⟩),
    (slice8 1, MarkedPtr.null), (slice8 2, MarkedPtr.null),
    (slice8 0, MarkedPtr.null) ]

/-- A reachable state with two live entries for key 0: key 0 is inserted
behind the live chain of keys 16 and 3, the chain is tombstoned, and a
second insert of key 0 fake-matches the second tombstone (the seek bug) and
writes there, leaving both copies live; two fresh keys then raise `set` to
the `set >= buckets.len()/2` resize trigger. -/
def opsDup : List (List Nat × MarkedPtr) :=
  [ (slice8 16, ⟨100⟩), (slice8 3, ⟨102⟩), (slice8 1, ⟨104⟩),
    (slice8 2, ⟨106⟩), (slice8 4, ⟨108⟩), (slice8 0, ⟨110⟩),
    (slice8 16, MarkedPtr.null), (slice8 3, MarkedPtr.null),
    (slice8 0, ⟨130⟩), (slice8 5, ⟨112⟩), (slice8 6, ⟨114⟩) ]

/-- A 16-bucket cache holding 5 live entries (occupancy below half), used to
witness the replace-returns-prior theorem. -/
def c7Start : HashSetPrefixCache :=
  (runInserts (opsChurn.take 5)).getD HashSetPrefixCache.new

/-- `c7Start` after `replace(prefix 6, 102)`: the state and returned prior
of the first replace of the witness scenario. -/
def c7Mid : HashSetPrefixCache × Option MarkedPtr :=
  (HashSetPrefixCache.replace 8 c7Start (slice8 6) ⟨102⟩).getD
    (HashSetPrefixCache.new, none)

/-- The reachable one-entry cache: a fresh cache after `insert(prefix of
key 7, raw 100)`. -/
def c10State : HashSetPrefixCache :=
  (HashSetPrefixCache.insert 8 HashSetPrefixCache.new (slice8 7) ⟨100⟩).getD
    HashSetPrefixCache.new

/-! Helper lemmas: probe-walk characterisation and the write/retrace
correspondence of `insert`. -/

theorem seekAux_zero (B : List MarkedElt) (k hash l times : Nat) (tomb : Option Nat) :
    seekAux B k hash l times tomb 0 = (tomb, none) := rfl

theorem seekAux_succ (B : List MarkedElt) (k hash l times rem : Nat) (tomb : Option Nat) :
    seekAux B k hash l times tomb (rem + 1) =
      if tomb.isNone && (B.getD (probeSlot hash l times) MarkedElt.null).is_tombstone then
        seekAux B k hash l (times + 1) (some (probeSlot hash l times)) rem
      else if (B.getD (probeSlot hash l times) MarkedElt.null).is_null ||
          (B.getD (probeSlot hash l times) MarkedElt.null).key == k then
        (tomb, some (probeSlot hash l times))
      else
        seekAux B k hash l (times + 1) tomb rem := rfl

theorem probeSlot_le (hash l t : Nat) : probeSlot hash l t ≤ l - 1 :=
  Nat.and_le_right

/-- Once the first tombstone has been recorded it is never changed. -/
theorem seekAux_fst_some (B : List MarkedElt) (k hash l : Nat) :
    ∀ rem times x, (seekAux B k hash l times (some x) rem).1 = some x := by
  intro rem
  induction rem with
  | zero => intro times x; rfl
  | succ r ih =>
    intro times x
    rw [seekAux_succ]
    simp only [Option.isNone_some, Bool.false_and, Bool.false_eq_true, if_false]
    split
    · rfl
    · exact ih (times + 1) x

/-- A recorded first tombstone is a tombstone slot within the mask range. -/
theorem seekAux_fst_tombstone (B : List MarkedElt) (k hash l : Nat) :
    ∀ rem times x o, seekAux B k hash l times none rem = (some x, o) →
      (B.getD x MarkedElt.null).is_tombstone = true ∧ x ≤ l - 1 := by
  intro rem
  induction rem with
  | zero =>
    intro times x o h
    rw [seekAux_zero, Prod.mk.injEq] at h
    exact absurd h.1 (by simp)
  | succ r ih =>
    intro times x o h
    rw [seekAux_succ] at h
    split at h
    · next hc =>
        have hx : probeSlot hash l times = x := by
          have h1 := congrArg Prod.fst h
          rw [seekAux_fst_some] at h1
          exact Option.some_inj.mp h1
        constructor
        · rw [← hx]; exact ((Bool.and_eq_true _ _).mp hc).2
        · rw [← hx]; exact probeSlot_le hash l times
    · split at h
      · rw [Prod.mk.injEq] at h
        exact absurd h.1 (by simp)
      · exact ih (times + 1) x o h

/-- Every terminal index seek reports lies within the mask range. -/
theorem seekAux_snd_le (B : List MarkedElt) (k hash l : Nat) :
    ∀ rem times tomb ix, (seekAux B k hash l times tomb rem).2 = some ix →
      ix ≤ l - 1 := by
  intro rem
  induction rem with
  | zero => intro times tomb ix h; simp [seekAux_zero] at h
  | succ r ih =>
    intro times tomb ix h
    rw [seekAux_succ] at h
    split at h
    · exact ih (times + 1) _ ix h
    · split at h
      · cases h
        exact probeSlot_le hash l times
      · exact ih (times + 1) _ ix h

theorem getD_set_self (B : List MarkedElt) (i : Nat) (t : MarkedElt)
    (h : i < B.length) : (B.set i t).getD i MarkedElt.null = t := by
  rw [List.getD_eq_getElem?_getD, List.getElem?_set_self (by omega), Option.getD_some]

theorem getD_set_ne (B : List MarkedElt) (i j : Nat) (t : MarkedElt)
    (h : i ≠ j) : (B.set i t).getD j MarkedElt.null = B.getD j MarkedElt.null := by
  rw [List.getD_eq_getElem?_getD, List.getElem?_set_ne h, ← List.getD_eq_getElem?_getD]

/-- Retrace after writing the sought key at the terminal slot: re-running the
probe walk stops at the written slot. -/
theorem seekAux_retrace_term (B : List MarkedElt) (k hash l : Nat) (t : MarkedElt)
    (ht : t.is_tombstone = false) (hn : t.is_null = false) (hk : t.key = k) :
    ∀ rem times tomb ix, ix < B.length →
      (seekAux B k hash l times tomb rem).2 = some ix →
      (seekAux (B.set ix t) k hash l times tomb rem).2 = some ix := by
  intro rem
  induction rem with
  | zero => intro times tomb ix _ h; simp [seekAux_zero] at h
  | succ r ih =>
    intro times tomb ix hix h
    by_cases hs : probeSlot hash l times = ix
    · rw [seekAux_succ, hs, getD_set_self B ix t hix]
      simp [ht, hn, hk]
    · rw [seekAux_succ] at h
      rw [seekAux_succ, getD_set_ne B ix (probeSlot hash l times) t (fun e => hs e.symm)]
      split at h
      · next hc => rw [if_pos hc]; exact ih (times + 1) _ ix hix h
      · next hc =>
          rw [if_neg hc]
          split at h
          · next hstop =>
              cases h
              exact absurd rfl hs
          · next hstop =>
              rw [if_neg hstop]
              exact ih (times + 1) _ ix hix h

/-- Retrace after writing the sought key into the first recorded tombstone
slot: re-running the probe walk stops there. -/
theorem seekAux_retrace_tomb (B : List MarkedElt) (k hash l : Nat) (t : MarkedElt)
    (ht : t.is_tombstone = false) (hn : t.is_null = false) (hk : t.key = k) :
    ∀ rem times tix o2, tix < B.length →
      seekAux B k hash l times none rem = (some tix, o2) →
      (seekAux (B.set tix t) k hash l times none rem).2 = some tix := by
  intro rem
  induction rem with
  | zero =>
    intro times tix o2 _ h
    rw [seekAux_zero, Prod.mk.injEq] at h
    exact absurd h.1 (by simp)
  | succ r ih =>
    intro times tix o2 htix h
    rw [seekAux_succ] at h
    split at h
    · next hc =>
        have hx : probeSlot hash l times = tix := by
          have h1 := congrArg Prod.fst h
          rw [seekAux_fst_some] at h1
          exact Option.some_inj.mp h1
        rw [seekAux_succ, hx, getD_set_self B tix t htix]
        simp [ht, hn, hk]
    · next hc =>
        split at h
        · next hstop =>
            rw [Prod.mk.injEq] at h
            exact absurd h.1 (by simp)
        · next hstop =>
            have hcb : (B.getD (probeSlot hash l times) MarkedElt.null).is_tombstone = false := by
              cases hb : (B.getD (probeSlot hash l times) MarkedElt.null).is_tombstone
              · rfl
              · exact absurd (by rw [hb]; rfl) hc
            have hs : probeSlot hash l times ≠ tix := by
              intro he
              have htb := (seekAux_fst_tombstone B k hash l r (times + 1) tix o2 h).1
              rw [he] at hcb
              rw [htb] at hcb
              exact Bool.noConfusion hcb
            rw [seekAux_succ, getD_set_ne B tix (probeSlot hash l times) t (fun e => hs e.symm),
              if_neg hc, if_neg hstop]
            exact ih (times + 1) tix o2 htix h

theorem seek_def (st : DenseHashTable) (k : Nat) :
    st.seek k = seekAux st.buckets k (fnvHash64 k) st.buckets.length 0 none
      st.buckets.length := rfl

theorem insert_zero (st : DenseHashTable) (t : MarkedElt) :
    DenseHashTable.insert 0 st t = none := rfl

theorem insert_succ (fuel : Nat) (st0 : DenseHashTable) (t : MarkedElt) :
    DenseHashTable.insert (fuel + 1) st0 t =
      (if st0.set ≥ st0.buckets.length / 2 then
          growWith (DenseHashTable.insert fuel) st0
        else some st0).bind (fun st =>
        match (st.seek t.key).2 with
        | none => none
        | some ix =>
          if (st.buckets.getD ix MarkedElt.null).is_null then
            match (st.seek t.key).1 with
            | some tix =>
              some ({ st with buckets := st.buckets.set tix t,
                              len := (st.len + 1) % USIZE }, none)
            | none =>
              some ({ st with buckets := st.buckets.set ix t,
                              set := (st.set + 1) % USIZE,
                              len := (st.len + 1) % USIZE }, none)
          else
            some ({ st with buckets := st.buckets.set ix t },
              some (st.buckets.getD ix MarkedElt.null))) := rfl

/-- The reinsertion fold of `grow` keeps the bucket vector nonempty,
provided the inserter does. -/
theorem foldlM_pos
    (ins : DenseHashTable → MarkedElt → Option (DenseHashTable × Option MarkedElt))
    (hins : ∀ a e a' r, ins a e = some (a', r) → 1 ≤ a'.buckets.length) :
    ∀ (v : List MarkedElt) (acc out : DenseHashTable), 1 ≤ acc.buckets.length →
      v.foldlM (fun acc e => (ins acc e).bind (fun r => some r.1)) acc = some out →
      1 ≤ out.buckets.length := by
  intro v
  induction v with
  | nil =>
    intro acc out hacc h
    simp only [List.foldlM_nil] at h
    cases h
    exact hacc
  | cons e v ih =>
    intro acc out hacc h
    rw [List.foldlM_cons] at h
    cases hstep : ins acc e with
    | none => rw [hstep] at h; simp at h
    | some pr =>
      rw [hstep] at h
      simp only [Option.some_bind] at h
      exact ih pr.1 out (hins acc e pr.1 pr.2 (by rw [hstep])) h

/-- `grow` leaves a nonempty bucket vector. -/
theorem growWith_pos
    (ins : DenseHashTable → MarkedElt → Option (DenseHashTable × Option MarkedElt))
    (hins : ∀ a e a' r, ins a e = some (a', r) → 1 ≤ a'.buckets.length)
    (st st' : DenseHashTable) (h : growWith ins st = some st') :
    1 ≤ st'.buckets.length := by
  rw [growWith] at h
  split at h
  · cases h
    simp
  · next hne =>
      refine foldlM_pos ins hins _ _ st' ?_ h
      simp only [List.length_replicate]
      split
      · simp only [List.length_append, List.length_replicate]
        omega
      · omega

/-- A successful `insert` leaves a nonempty bucket vector. -/
theorem insert_pos : ∀ (fuel : Nat) (st : DenseHashTable) (t : MarkedElt)
    (st' : DenseHashTable) (res : Option MarkedElt),
    DenseHashTable.insert fuel st t = some (st', res) →
    1 ≤ st'.buckets.length := by
  intro fuel
  induction fuel with
  | zero => intro st t st' res h; exact absurd h (by simp [insert_zero])
  | succ fuel ih =>
    intro st0 t st' res h
    rw [insert_succ] at h
    cases hg : (if st0.set ≥ st0.buckets.length / 2 then
        growWith (DenseHashTable.insert fuel) st0 else some st0) with
    | none => rw [hg] at h; simp at h
    | some st1 =>
      rw [hg] at h
      simp only [Option.some_bind] at h
      have hl1 : 1 ≤ st1.buckets.length := by
        by_cases hcond : st0.set ≥ st0.buckets.length / 2
        · rw [if_pos hcond] at hg
          exact growWith_pos _ (fun a e a' r hh => ih a e a' r hh) st0 st1 hg
        · rw [if_neg hcond] at hg
          cases hg
          omega
      split at h
      · exact absurd h (by simp)
      · next ix heq =>
          split at h
          · split at h
            · cases h; simpa using hl1
            · cases h; simpa using hl1
          · cases h; simpa using hl1

/-- Master lemma: a successful `insert` of a live entry leaves the table in
a state where seeking the entry's key terminates exactly at the slot the
entry was written to. -/
theorem insert_writes (fuel : Nat) (st0 : DenseHashTable) (t : MarkedElt)
    (st' : DenseHashTable) (res : Option MarkedElt)
    (hn : t.is_null = false) (ht : t.is_tombstone = false)
    (h : DenseHashTable.insert fuel st0 t = some (st', res)) :
    ∃ w, w < st'.buckets.length ∧ (st'.seek t.key).2 = some w ∧
      st'.buckets.getD w MarkedElt.null = t := by
  cases fuel with
  | zero => exact absurd h (by simp [insert_zero])
  | succ fuel =>
    rw [insert_succ] at h
    cases hg : (if st0.set ≥ st0.buckets.length / 2 then
        growWith (DenseHashTable.insert fuel) st0 else some st0) with
    | none => rw [hg] at h; simp at h
    | some st1 =>
      rw [hg] at h
      simp only [Option.some_bind] at h
      have hl1 : 1 ≤ st1.buckets.length := by
        by_cases hcond : st0.set ≥ st0.buckets.length / 2
        · rw [if_pos hcond] at hg
          exact growWith_pos _ (fun a e a' r hh => insert_pos fuel a e a' r hh) st0 st1 hg
        · rw [if_neg hcond] at hg
          cases hg
          omega
      split at h
      · exact absurd h (by simp)
      · next ix heq =>
          have hixle : ix ≤ st1.buckets.length - 1 := by
            rw [seek_def] at heq
            exact seekAux_snd_le _ _ _ _ _ _ _ ix heq
          have hixlt : ix < st1.buckets.length := by omega
          split at h
          · split at h
            · next tix heq2 =>
                cases h
                have hpair : st1.seek t.key = (some tix, some ix) := Prod.ext heq2 heq
                rw [seek_def] at hpair
                have htomb := seekAux_fst_tombstone st1.buckets t.key
                  (fnvHash64 t.key) st1.buckets.length st1.buckets.length 0 tix
                  (some ix) hpair
                have htixlt : tix < st1.buckets.length := by
                  have := htomb.2
                  omega
                refine ⟨tix, ?_, ?_, ?_⟩
                · simpa using htixlt
                · rw [seek_def]
                  dsimp only
                  simp only [List.length_set]
                  exact seekAux_retrace_tomb st1.buckets t.key (fnvHash64 t.key)
                    st1.buckets.length t ht hn rfl st1.buckets.length 0 tix
                    (some ix) htixlt hpair
                · exact getD_set_self _ _ _ htixlt
            · next heq2 =>
                cases h
                refine ⟨ix, ?_, ?_, ?_⟩
                · simpa using hixlt
                · rw [seek_def]
                  dsimp only
                  simp only [List.length_set]
                  refine seekAux_retrace_term st1.buckets t.key (fnvHash64 t.key)
                    st1.buckets.length t ht hn rfl st1.buckets.length 0 none ix
                    hixlt ?_
                  rw [seek_def] at heq
                  exact heq
                · exact getD_set_self _ _ _ hixlt
          · cases h
            refine ⟨ix, ?_, ?_, ?_⟩
            · simpa using hixlt
            · rw [seek_def]
              dsimp only
              simp only [List.length_set]
              refine seekAux_retrace_term st1.buckets t.key (fnvHash64 t.key)
                st1.buckets.length t ht hn rfl st1.buckets.length 0 none ix
                hixlt ?_
              rw [seek_def] at heq
              exact heq
            · exact getD_set_self _ _ _ hixlt

/-- `is_null` is false exactly for nonzero raw words. -/
theorem is_null_false_of_raw (r : MarkedPtr) (h : r.raw ≠ 0) : r.is_null = false := by
  unfold MarkedPtr.is_null
  exact beq_eq_false_iff_ne.mpr h

theorem elt_is_null_false (k : Nat) (r : MarkedPtr) (h : r.raw ≠ 0) :
    MarkedElt.is_null ⟨k, r⟩ = false := by
  unfold MarkedElt.is_null
  exact is_null_false_of_raw r h

theorem elt_is_tombstone_false (k : Nat) (r : MarkedPtr) (h : r.raw ≠ MARKED_TOMBSTONE) :
    MarkedElt.is_tombstone ⟨k, r⟩ = false := by
  unfold MarkedElt.is_tombstone MarkedPtr.raw_eq
  exact beq_eq_false_iff_ne.mpr h

/-- Core round-trip lemma at the cache level. -/
theorem cache_insert_lookup (F : Nat) (c c' : HashSetPrefixCache) (bs : List Nat)
    (r : MarkedPtr) (hr0 : r.raw ≠ 0) (hrs : r.raw ≠ MARKED_TOMBSTONE)
    (h : HashSetPrefixCache.insert F c bs r = some c') :
    HashSetPrefixCache.lookup c' bs = some (some r) := by
  unfold HashSetPrefixCache.insert at h
  cases hk : read_u64 bs with
  | none => rw [hk] at h; exact absurd h (by simp)
  | some k =>
    rw [hk] at h
    rw [is_null_false_of_raw r hr0] at h
    simp only [Bool.false_eq_true, if_false] at h
    cases hins : DenseHashTable.insert F c.tbl ⟨k, r⟩ with
    | none => rw [hins] at h; exact absurd h (by simp)
    | some pr =>
      obtain ⟨t, res⟩ := pr
      rw [hins] at h
      cases h
      obtain ⟨w, hwlt, hseek, hgetD⟩ := insert_writes F c.tbl ⟨k, r⟩ t res
        (elt_is_null_false k r hr0) (elt_is_tombstone_false k r hrs) hins
      have hkey : MarkedElt.key ⟨k, r⟩ = k := rfl
      rw [hkey] at hseek
      unfold HashSetPrefixCache.lookup
      rw [hk]
      dsimp only
      unfold DenseHashTable.lookup
      rw [if_neg (show ¬t.buckets.length = 0 by omega), hseek]
      dsimp only
      rw [hgetD, elt_is_null_false k r hr0]
      simp

/-- `replace` and `insert` perform the same state change for every input. -/
theorem replace_same_effect (F : Nat) (c : HashSetPrefixCache) (bs : List Nat)
    (p : MarkedPtr) :
    (HashSetPrefixCache.replace F c bs p).map Prod.fst =
      HashSetPrefixCache.insert F c bs p := by
  unfold HashSetPrefixCache.replace HashSetPrefixCache.insert
  cases hk : read_u64 bs with
  | none => simp
  | some k =>
    by_cases hp : p.is_null = true
    · simp [hp]
    · simp only [hp, Bool.false_eq_true, if_false]
      cases hins : DenseHashTable.insert F c.tbl ⟨k, p⟩ with
      | none => simp
      | some pr => obtain ⟨t, res⟩ := pr; simp

/-- After a first `replace(p, r1)` that lands the entry, a second
`replace(p, r2)` that does not trigger a resize returns `Some(r1)`. -/
theorem replace_returns_prior (F G : Nat) (c c1 : HashSetPrefixCache)
    (bs : List Nat) (r1 r2 : MarkedPtr) (o1 : Option MarkedPtr)
    (hr10 : r1.raw ≠ 0) (hr1s : r1.raw ≠ MARKED_TOMBSTONE) (hr20 : r2.raw ≠ 0)
    (h1 : HashSetPrefixCache.replace F c bs r1 = some (c1, o1))
    (hng : c1.tbl.set < c1.tbl.buckets.length / 2) :
    ∃ c2, HashSetPrefixCache.replace (G + 1) c1 bs r2 = some (c2, some r1) := by
  unfold HashSetPrefixCache.replace at h1
  cases hk : read_u64 bs with
  | none => rw [hk] at h1; exact absurd h1 (by simp)
  | some k =>
    rw [hk] at h1
    rw [is_null_false_of_raw r1 hr10] at h1
    simp only [Bool.false_eq_true, if_false] at h1
    cases hins1 : DenseHashTable.insert F c.tbl ⟨k, r1⟩ with
    | none => rw [hins1] at h1; exact absurd h1 (by simp)
    | some pr =>
      obtain ⟨t1, res1⟩ := pr
      rw [hins1] at h1
      dsimp only at h1
      rw [Option.some_inj, Prod.mk.injEq] at h1
      obtain ⟨hc1, _⟩ := h1
      obtain ⟨w, hwlt, hseek, hgetD⟩ := insert_writes F c.tbl ⟨k, r1⟩ t1 res1
        (elt_is_null_false k r1 hr10) (elt_is_tombstone_false k r1 hr1s) hins1
      have hkey : MarkedElt.key ⟨k, r1⟩ = k := rfl
      rw [hkey] at hseek
      have htbl : c1.tbl = t1 := by rw [← hc1]
      refine ⟨⟨{ t1 with buckets := t1.buckets.set w ⟨k, r2⟩ }⟩, ?_⟩
      unfold HashSetPrefixCache.replace
      rw [hk]
      rw [is_null_false_of_raw r2 hr20]
      simp only [Bool.false_eq_true, if_false]
      rw [insert_succ]
      rw [htbl] at hng
      rw [if_neg (by rw [htbl]; omega)]
      rw [htbl]
      simp only [Option.some_bind]
      have hkey2 : MarkedElt.key ⟨k, r2⟩ = k := rfl
      rw [hkey2, hseek]
      dsimp only
      rw [hgetD, elt_is_null_false k r1 hr10]
      simp

/-! Probe-sequence arithmetic, clean-rebuild machinery and the
grow/compact characterisation. -/

/-- Twice the triangular increment `(t + t²)/2` recovers `t + t²`. -/
theorem two_tri (t : Nat) : 2 * ((t + t * t) / 2) = t + t * t := by
  have he : 2 ∣ t + t * t := by
    rcases Nat.even_or_odd t with he | ho
    · obtain ⟨m, hm⟩ := he
      exact ⟨m + t * m, by rw [hm]; ring⟩
    · obtain ⟨m, hm⟩ := ho
      exact ⟨2 * m * m + 3 * m + 1, by rw [hm]; ring⟩
  exact Nat.mul_div_cancel' he

/-- The difference of two triangular increments factors as
`d * (t1 + d + t1 + 1)`. -/
theorem tri_sub_factor (t1 d : Nat) :
    2 * ((t1 + d + (t1 + d) * (t1 + d)) / 2 - (t1 + t1 * t1) / 2) =
      d * (t1 + d + t1 + 1) := by
  have h1 := two_tri (t1 + d)
  have h2 := two_tri t1
  have hmono : (t1 + t1 * t1) / 2 ≤ (t1 + d + (t1 + d) * (t1 + d)) / 2 :=
    Nat.div_le_div_right (by nlinarith)
  have hms := Nat.mul_sub 2 ((t1 + d + (t1 + d) * (t1 + d)) / 2)
    ((t1 + t1 * t1) / 2)
  rw [hms, h1, h2]
  have : t1 + t1 * t1 ≤ t1 + d + (t1 + d) * (t1 + d) := by nlinarith
  nlinarith [Nat.sub_add_cancel this]

/-- Core injectivity, ordered case. -/
theorem probe_inj_le (e hash t1 t2 : Nat) (h1 : t1 < 2 ^ e) (h2 : t2 < 2 ^ e)
    (hle : t1 ≤ t2)
    (heq : (hash + (t1 + t1 * t1) / 2) % 2 ^ e =
           (hash + (t2 + t2 * t2) / 2) % 2 ^ e) : t1 = t2 := by
  obtain ⟨d, rfl⟩ := Nat.exists_eq_add_of_le hle
  rcases Nat.eq_zero_or_pos d with hd0 | hdpos
  · omega
  exfalso
  have hmono : (t1 + t1 * t1) / 2 ≤ (t1 + d + (t1 + d) * (t1 + d)) / 2 :=
    Nat.div_le_div_right (by nlinarith)
  have hmodeq : (t1 + t1 * t1) / 2 ≡ (t1 + d + (t1 + d) * (t1 + d)) / 2
      [MOD 2 ^ e] := Nat.ModEq.add_left_cancel' hash heq
  have hdvd : 2 ^ e ∣ (t1 + d + (t1 + d) * (t1 + d)) / 2 - (t1 + t1 * t1) / 2 :=
    (Nat.modEq_iff_dvd' hmono).mp hmodeq
  obtain ⟨c, hc⟩ := hdvd
  have h2d : 2 ^ (e + 1) ∣ d * (t1 + d + t1 + 1) := by
    refine ⟨c, ?_⟩
    rw [← tri_sub_factor t1 d, hc, pow_succ]
    ring
  have hp : 2 ^ e + 2 ^ e = 2 ^ (e + 1) := by rw [pow_succ]; ring
  have hparity : d % 2 = 1 ∨ (t1 + d + t1 + 1) % 2 = 1 := by omega
  rcases hparity with hodd | hodd
  · have hcop : Nat.Coprime (2 ^ (e + 1)) d :=
      Nat.Coprime.pow_left (e + 1) (Nat.coprime_two_left.mpr (Nat.odd_iff.mpr hodd))
    have hdvds : 2 ^ (e + 1) ∣ t1 + d + t1 + 1 := hcop.dvd_of_dvd_mul_left h2d
    have := Nat.le_of_dvd (by omega) hdvds
    omega
  · have hcop : Nat.Coprime (2 ^ (e + 1)) (t1 + d + t1 + 1) :=
      Nat.Coprime.pow_left (e + 1) (Nat.coprime_two_left.mpr (Nat.odd_iff.mpr hodd))
    have hdvds : 2 ^ (e + 1) ∣ d := hcop.dvd_of_dvd_mul_right h2d
    have := Nat.le_of_dvd hdpos hdvds
    omega

/-- On a power-of-two table, the probe slot as a reduced residue. -/
theorem probeSlot_eq_mod (hash e t : Nat) (he : e ≤ 64) :
    probeSlot hash (2 ^ e) t = (hash + (t + t * t) / 2) % 2 ^ e := by
  unfold probeSlot next_probe USIZE
  rw [Nat.and_pow_two_sub_one_eq_mod, Nat.mod_mod_of_dvd _ (pow_dvd_pow 2 he)]

/-- Distinct attempts below the table size probe distinct slots. -/
theorem probeSlot_inj (hash e t1 t2 : Nat) (he : e ≤ 64) (h1 : t1 < 2 ^ e)
    (h2 : t2 < 2 ^ e)
    (heq : probeSlot hash (2 ^ e) t1 = probeSlot hash (2 ^ e) t2) : t1 = t2 := by
  rw [probeSlot_eq_mod hash e t1 he, probeSlot_eq_mod hash e t2 he] at heq
  rcases Nat.le_total t1 t2 with hle | hle
  · exact probe_inj_le e hash t1 t2 h1 h2 hle heq
  · exact (probe_inj_le e hash t2 t1 h2 h1 hle heq.symm).symm

/-- The first `2^e` probe attempts visit every slot of a `2^e`-bucket
table. -/
theorem probeSlot_surj (hash e j : Nat) (he : e ≤ 64) (hj : j < 2 ^ e) :
    ∃ t, t < 2 ^ e ∧ probeSlot hash (2 ^ e) t = j := by
  have hpos : 0 < 2 ^ e := Nat.pos_pow_of_pos e (by omega)
  let f : Fin (2 ^ e) → Fin (2 ^ e) := fun t =>
    ⟨probeSlot hash (2 ^ e) t, by
      have := probeSlot_le hash (2 ^ e) t
      omega⟩
  have hinj : Function.Injective f := by
    intro a b hab
    have : probeSlot hash (2 ^ e) a = probeSlot hash (2 ^ e) b :=
      congrArg Fin.val hab
    exact Fin.ext (probeSlot_inj hash e a b he a.2 b.2 this)
  obtain ⟨t, htt⟩ := Finite.surjective_of_injective hinj ⟨j, hj⟩
  exact ⟨t, t.2, congrArg Fin.val htt⟩



/-- A tombstone entry is not null (its raw word is `!0`, not 0). -/
theorem tombstone_not_null (e : MarkedElt) (h : e.is_tombstone = true) :
    e.is_null = false := by
  unfold MarkedElt.is_tombstone MarkedPtr.raw_eq at h
  unfold MarkedElt.is_null MarkedPtr.is_null
  have := eq_of_beq h
  rw [this]
  decide

/-- A null entry is not a tombstone. -/
theorem null_not_tombstone (e : MarkedElt) (h : e.is_null = true) :
    e.is_tombstone = false := by
  unfold MarkedElt.is_null MarkedPtr.is_null at h
  unfold MarkedElt.is_tombstone MarkedPtr.raw_eq
  have := eq_of_beq h
  rw [this]
  decide

/-- A slot read is either a list member or the null default. -/
theorem getD_mem_or (B : List MarkedElt) (ix : Nat) :
    B.getD ix MarkedElt.null ∈ B ∨ B.getD ix MarkedElt.null = MarkedElt.null := by
  by_cases hix : ix < B.length
  · left
    rw [List.getD_eq_getElem _ _ hix]
    exact List.getElem_mem hix
  · right
    exact List.getD_eq_default B MarkedElt.null (by omega)

/-- If some probe attempt in the remaining window hits a null slot or a live
slot carrying the key, the walk reports a terminal slot. -/
theorem seekAux_finds (B : List MarkedElt) (k hash l : Nat) :
    ∀ rem times tomb t, times ≤ t → t < times + rem →
      ((B.getD (probeSlot hash l t) MarkedElt.null).is_null = true ∨
       ((B.getD (probeSlot hash l t) MarkedElt.null).is_tombstone = false ∧
        (B.getD (probeSlot hash l t) MarkedElt.null).key = k)) →
      ((seekAux B k hash l times tomb rem).2).isSome = true := by
  intro rem
  induction rem with
  | zero => intro times tomb t h1 h2 _; omega
  | succ r ih =>
    intro times tomb t h1 h2 hstop
    rw [seekAux_succ]
    by_cases hts : t = times
    · subst hts
      rcases hstop with hnull | ⟨htmb, hkey⟩
      · rw [null_not_tombstone _ hnull, Bool.and_false, hnull]
        simp
      · rw [htmb, Bool.and_false]
        simp only [Bool.false_eq_true, if_false]
        rw [hkey, beq_self_eq_true]
        simp
    · split
      · exact ih (times + 1) _ t (by omega) (by omega) hstop
      · split
        · simp
        · exact ih (times + 1) tomb t (by omega) (by omega) hstop

/-- On a tombstone-free table the walk never records a first tombstone. -/
theorem seekAux_fst_none (B : List MarkedElt) (k hash l : Nat)
    (hB : ∀ e ∈ B, e.is_tombstone = false) :
    ∀ rem times, (seekAux B k hash l times none rem).1 = none := by
  intro rem
  induction rem with
  | zero => intro times; rfl
  | succ r ih =>
    intro times
    rw [seekAux_succ]
    have hnt : (B.getD (probeSlot hash l times) MarkedElt.null).is_tombstone = false := by
      rcases getD_mem_or B (probeSlot hash l times) with hm | hd
      · exact hB _ hm
      · rw [hd]; decide
    rw [hnt, Bool.and_false]
    simp only [Bool.false_eq_true, if_false]
    split
    · rfl
    · exact ih (times + 1)

/-- The terminal slot is null or carries the sought key. -/
theorem seekAux_term_spec (B : List MarkedElt) (k hash l : Nat) :
    ∀ rem times tomb ix, (seekAux B k hash l times tomb rem).2 = some ix →
      (B.getD ix MarkedElt.null).is_null = true ∨
      (B.getD ix MarkedElt.null).key = k := by
  intro rem
  induction rem with
  | zero => intro times tomb ix h; simp [seekAux_zero] at h
  | succ r ih =>
    intro times tomb ix h
    rw [seekAux_succ] at h
    split at h
    · exact ih (times + 1) _ ix h
    · split at h
      · next hcond =>
          cases h
          rcases Bool.or_eq_true_iff.mp hcond with hnull | hkey
          · exact Or.inl hnull
          · exact Or.inr (eq_of_beq hkey)
      · exact ih (times + 1) tomb ix h

/-- Writing into a null slot elsewhere does not change where seek stops,
provided the stop was at a non-null slot. -/
theorem seekAux_stable (B : List MarkedElt) (k hash l : Nat) (u : MarkedElt)
    (j : Nat) (hj : (B.getD j MarkedElt.null).is_null = true) :
    ∀ rem times tomb w, (B.getD w MarkedElt.null).is_null = false →
      (seekAux B k hash l times tomb rem).2 = some w →
      (seekAux (B.set j u) k hash l times tomb rem).2 = some w := by
  intro rem
  induction rem with
  | zero => intro times tomb w _ h; simp [seekAux_zero] at h
  | succ r ih =>
    intro times tomb w hw h
    rw [seekAux_succ] at h
    by_cases hs : probeSlot hash l times = j
    · rw [hs] at h
      rw [null_not_tombstone _ hj, Bool.and_false] at h
      simp only [Bool.false_eq_true, if_false] at h
      rw [hj] at h
      simp only [Bool.true_or, if_true] at h
      cases h
      rw [hj] at hw
      exact Bool.noConfusion hw
    · rw [seekAux_succ,
        getD_set_ne B j (probeSlot hash l times) u (fun e => hs e.symm)]
      split at h
      · next hc => rw [if_pos hc]; exact ih (times + 1) _ w hw h
      · next hc =>
          rw [if_neg hc]
          split at h
          · next hc2 => rw [if_pos hc2]; exact h
          · next hc2 => rw [if_neg hc2]; exact ih (times + 1) tomb w hw h

/-- A table with fewer occupied slots than buckets has a null slot. -/
theorem exists_null_slot (B : List MarkedElt) (h : countOccupied B < B.length) :
    ∃ j, j < B.length ∧ (B.getD j MarkedElt.null).is_null = true := by
  by_contra hc
  push_neg at hc
  have hall : ∀ a ∈ B, (fun e => !e.is_null) a = true := by
    intro a ha
    obtain ⟨i, hi, hieq⟩ := List.mem_iff_getElem.mp ha
    have := hc i hi
    rw [List.getD_eq_getElem _ _ hi, hieq] at this
    simp only [Bool.not_eq_true] at this  
    simp [this]
  unfold countOccupied at h
  rw [List.countP_eq_length.mpr hall] at h
  omega



/-- A list splits around any index below its length. -/
theorem split_at_ix (B : List MarkedElt) (w : Nat) (hw : w < B.length) :
    B = B.take w ++ B.getD w MarkedElt.null :: B.drop (w + 1) := by
  rw [List.getD_eq_getElem _ _ hw]
  conv_lhs => rw [← List.take_append_drop w B]
  rw [List.drop_eq_getElem_cons hw]

/-- Writing a live entry into a null slot adds one occupied slot. -/
theorem countOccupied_set (B : List MarkedElt) (w : Nat) (t : MarkedElt)
    (hw : w < B.length) (hnull : (B.getD w MarkedElt.null).is_null = true)
    (ht : t.is_null = false) :
    countOccupied (B.set w t) = countOccupied B + 1 := by
  rw [List.set_eq_take_cons_drop t hw]
  conv_rhs => rw [split_at_ix B w hw]
  unfold countOccupied
  rw [List.countP_append, List.countP_append, List.countP_cons, List.countP_cons]
  rw [List.getD_eq_getElem?_getD] at hnull
  simp [hnull, ht]
  omega

/-- Writing a live entry into a null slot extends the live entries by that
entry, up to permutation. -/
theorem liveElts_set (B : List MarkedElt) (w : Nat) (t : MarkedElt)
    (hw : w < B.length) (hnull : (B.getD w MarkedElt.null).is_null = true)
    (htn : t.is_null = false) (htt : t.is_tombstone = false) :
    List.Perm ((B.set w t).filter (fun e => !e.is_null && !e.is_tombstone))
      (t :: B.filter (fun e => !e.is_null && !e.is_tombstone)) := by
  rw [List.set_eq_take_cons_drop t hw]
  conv_rhs => rw [split_at_ix B w hw]
  rw [List.filter_append, List.filter_append, List.filter_cons, List.filter_cons]
  simp only [hnull, htn, htt, Bool.not_true, Bool.not_false, Bool.false_and,
    Bool.true_and, if_false, if_true]
  exact List.perm_middle


/-- An insert of a fresh-keyed live entry into a tombstone-free,
less-than-half-occupied power-of-two table takes the null-write branch:
no resize, and the entry lands in some previously null slot. -/
theorem insert_clean (f : Nat) (st : DenseHashTable) (t : MarkedElt) (e : Nat)
    (hlen : st.buckets.length = 2 ^ e) (he : e ≤ 64)
    (hnt : ∀ x ∈ st.buckets, x.is_tombstone = false)
    (hset : st.set = countOccupied st.buckets)
    (hcap : st.set < st.buckets.length / 2)
    (hkey : ∀ x ∈ liveElts st, x.key ≠ t.key)
    (htn : t.is_null = false) (htt : t.is_tombstone = false) :
    ∃ w, w < st.buckets.length ∧
      (st.buckets.getD w MarkedElt.null).is_null = true ∧
      DenseHashTable.insert (f + 1) st t =
        some ({ st with buckets := st.buckets.set w t,
                        set := (st.set + 1) % USIZE,
                        len := (st.len + 1) % USIZE }, none) := by
  have hl2 : 2 ≤ st.buckets.length := by omega
  obtain ⟨j, hjlt, hjnull⟩ : ∃ j, j < st.buckets.length ∧
      (st.buckets.getD j MarkedElt.null).is_null = true := by
    apply exists_null_slot
    omega
  obtain ⟨t0, ht0lt, ht0⟩ : ∃ t0, t0 < 2 ^ e ∧
      probeSlot (fnvHash64 t.key) (2 ^ e) t0 = j := by
    apply probeSlot_surj _ _ _ he
    omega
  have hsome : ((st.seek t.key).2).isSome = true := by
    rw [seek_def, hlen]
    apply seekAux_finds st.buckets t.key (fnvHash64 t.key) (2 ^ e) (2 ^ e) 0
      none t0 (by omega) (by omega)
    rw [ht0]
    left
    exact hjnull
  obtain ⟨ix, hix⟩ := Option.isSome_iff_exists.mp hsome
  have hixlt : ix < st.buckets.length := by
    have := seekAux_snd_le st.buckets t.key (fnvHash64 t.key) st.buckets.length
      st.buckets.length 0 none ix (by rw [← seek_def]; exact hix)
    omega
  have hterm : (st.buckets.getD ix MarkedElt.null).is_null = true := by
    rcases seekAux_term_spec st.buckets t.key (fnvHash64 t.key)
      st.buckets.length st.buckets.length 0 none ix
      (by rw [← seek_def]; exact hix) with hnull | hkmatch
    · exact hnull
    · by_cases hbn : (st.buckets.getD ix MarkedElt.null).is_null = true
      · exact hbn
      · exfalso
        have hbn' : (st.buckets.getD ix MarkedElt.null).is_null = false :=
          Bool.not_eq_true _ ▸ eq_false_of_ne_true hbn
        have hm : st.buckets.getD ix MarkedElt.null ∈ st.buckets := by
          rcases getD_mem_or st.buckets ix with hm | hd
          · exact hm
          · rw [hd] at hbn'
            exact absurd hbn' (by decide)
        have hbt := hnt _ hm
        have hmem : st.buckets.getD ix MarkedElt.null ∈ liveElts st := by
          unfold liveElts
          rw [List.mem_filter]
          exact ⟨hm, by rw [hbn', hbt]; rfl⟩
        exact hkey _ hmem hkmatch
  have hfst : (st.seek t.key).1 = none := by
    rw [seek_def]
    exact seekAux_fst_none st.buckets t.key (fnvHash64 t.key)
      st.buckets.length hnt st.buckets.length 0
  refine ⟨ix, hixlt, hterm, ?_⟩
  rw [insert_succ]
  rw [if_neg (show ¬st.set ≥ st.buckets.length / 2 by omega)]
  simp only [Option.some_bind]
  rw [hix]
  dsimp only
  rw [hterm]
  simp only [if_true]
  rw [hfst]



/-- The reinsertion fold of `grow` on a tombstone-free power-of-two table at
most half occupied by the end: it succeeds, fills exactly one null slot per
entry, keeps the table tombstone-free and accurately counted, extends the
live entries by the folded list up to permutation, and leaves every folded
entry (and every previously findable entry) findable. -/
theorem fold_clean (f : Nat) (e : Nat) (he : e ≤ 64) :
    ∀ (v : List MarkedElt) (acc : DenseHashTable),
      acc.buckets.length = 2 ^ e →
      (∀ x ∈ acc.buckets, x.is_tombstone = false) →
      acc.set = countOccupied acc.buckets →
      acc.len = acc.set →
      2 * (acc.set + v.length) ≤ 2 ^ e →
      (∀ x ∈ v, x.is_null = false ∧ x.is_tombstone = false) →
      (liveElts acc ++ v).Pairwise (fun a b => a.key ≠ b.key) →
      ∃ out,
        v.foldlM (fun acc e => (DenseHashTable.insert (f + 1) acc e).bind
            (fun r => some r.1)) acc = some out ∧
        out.buckets.length = 2 ^ e ∧
        (∀ x ∈ out.buckets, x.is_tombstone = false) ∧
        out.set = countOccupied out.buckets ∧
        out.len = out.set ∧
        out.set = acc.set + v.length ∧
        List.Perm (liveElts out) (liveElts acc ++ v) ∧
        (∀ x, x.is_null = false → Findable acc x → Findable out x) ∧
        (∀ x ∈ v, Findable out x) := by
  intro v
  induction v with
  | nil =>
    intro acc h1 h2 h3 h4 _ _ _
    exact ⟨acc, by simp [List.foldlM_nil], h1, h2, h3, h4, by simp, by simp,
      fun x _ hf => hf, by simp⟩
  | cons t v ih =>
    intro acc h1 h2 h3 h4 h5 h6 h7
    have hkey : ∀ x ∈ liveElts acc, x.key ≠ t.key := fun x hx =>
      (List.pairwise_append.mp h7).2.2 x hx t (by simp)
    have ht := h6 t (by simp)
    have hpos : 0 < 2 ^ e := Nat.pos_pow_of_pos e (by omega)
    have hcap : acc.set < acc.buckets.length / 2 := by
      rw [h1]
      simp only [List.length_cons] at h5
      omega
    obtain ⟨w, hwlt, hwnull, heq⟩ := insert_clean f acc t e h1 he h2 h3 hcap hkey
      ht.1 ht.2
    have h64 : 2 ^ e ≤ 2 ^ 64 := Nat.pow_le_pow_right (by omega) he
    have hsetlt : acc.set + 1 < USIZE := by
      unfold USIZE
      simp only [List.length_cons] at h5
      omega
    have hsmod : (acc.set + 1) % USIZE = acc.set + 1 := Nat.mod_eq_of_lt hsetlt
    have hlmod : (acc.len + 1) % USIZE = acc.len + 1 := by rw [h4]; exact hsmod
    have h1' : (acc.buckets.set w t).length = 2 ^ e := by
      rw [List.length_set]; exact h1
    have h2' : ∀ x ∈ acc.buckets.set w t, x.is_tombstone = false := by
      intro x hx
      rcases List.mem_or_eq_of_mem_set hx with hm | hx2
      · exact h2 x hm
      · rw [hx2]; exact ht.2
    have h3' : (acc.set + 1) % USIZE = countOccupied (acc.buckets.set w t) := by
      rw [hsmod, countOccupied_set acc.buckets w t hwlt hwnull ht.1, h3]
    have h4' : (acc.len + 1) % USIZE = (acc.set + 1) % USIZE := by rw [h4]
    have hperm1 : List.Perm
        ((acc.buckets.set w t).filter (fun x => !x.is_null && !x.is_tombstone))
        (t :: liveElts acc) :=
      liveElts_set acc.buckets w t hwlt hwnull ht.1 ht.2
    have hliveq : liveElts { buckets := acc.buckets.set w t,
                             len := (acc.len + 1) % USIZE,
                             set := (acc.set + 1) % USIZE } =
        (acc.buckets.set w t).filter (fun x => !x.is_null && !x.is_tombstone) := rfl
    have h7' : (liveElts { buckets := acc.buckets.set w t,
                           len := (acc.len + 1) % USIZE,
                           set := (acc.set + 1) % USIZE } ++ v).Pairwise
        (fun a b => a.key ≠ b.key) := by
      rw [hliveq]
      have hp : List.Perm
          ((acc.buckets.set w t).filter (fun x => !x.is_null && !x.is_tombstone) ++ v)
          (liveElts acc ++ t :: v) :=
        (hperm1.append_right v).trans List.perm_middle.symm
      exact (hp.pairwise_iff (fun hab => Ne.symm hab)).mpr h7
    have h5' : 2 * ((acc.set + 1) % USIZE + v.length) ≤ 2 ^ e := by
      rw [hsmod]
      simp only [List.length_cons] at h5
      omega
    have h6' : ∀ x ∈ v, x.is_null = false ∧ x.is_tombstone = false :=
      fun x hx => h6 x (by simp [hx])
    obtain ⟨out, hfold, o1, o2, o3, o4, o5, operm, opres, ofind⟩ :=
      ih { buckets := acc.buckets.set w t,
           len := (acc.len + 1) % USIZE,
           set := (acc.set + 1) % USIZE } h1' h2' h3' h4' h5' h6' h7'
    have hfind1 : ∀ x, x.is_null = false → Findable acc x →
        Findable { buckets := acc.buckets.set w t,
                   len := (acc.len + 1) % USIZE,
                   set := (acc.set + 1) % USIZE } x := by
      intro x hxnull hfx
      obtain ⟨wx, hwxlt, hseekx, hgetx⟩ := hfx
      have hwne : w ≠ wx := by
        intro hcontra
        rw [hcontra, hgetx, hxnull] at hwnull
        exact Bool.noConfusion hwnull
      refine ⟨wx, by simpa using hwxlt, ?_, ?_⟩
      · show (seekAux (acc.buckets.set w t) x.key (fnvHash64 x.key)
          (acc.buckets.set w t).length 0 none (acc.buckets.set w t).length).2 =
            some wx
        rw [List.length_set]
        refine seekAux_stable acc.buckets x.key (fnvHash64 x.key)
          acc.buckets.length t w hwnull acc.buckets.length 0 none wx ?_ ?_
        · rw [hgetx]; exact hxnull
        · rw [seek_def] at hseekx; exact hseekx
      · show (acc.buckets.set w t).getD wx MarkedElt.null = x
        rw [getD_set_ne acc.buckets w wx t hwne]
        exact hgetx
    refine ⟨out, ?_, o1, o2, o3, o4, ?_, ?_, ?_, ?_⟩
    · rw [List.foldlM_cons, heq]
      simp only [Option.some_bind]
      exact hfold
    · rw [o5]
      show (acc.set + 1) % USIZE + v.length = acc.set + (v.length + 1)
      rw [hsmod]
      omega
    · refine operm.trans ?_
      rw [hliveq]
      exact (hperm1.append_right v).trans List.perm_middle.symm
    · intro x hxnull hfx
      exact opres x hxnull (hfind1 x hxnull hfx)
    · intro x hx
      rcases List.mem_cons.mp hx with hx1 | hxv
      · subst hx1
        apply opres x ht.1
        obtain ⟨w2, hw2, hs2, hg2⟩ := insert_writes (f + 1) acc x
          { buckets := acc.buckets.set w x,
            len := (acc.len + 1) % USIZE,
            set := (acc.set + 1) % USIZE } none ht.1 ht.2 heq
        exact ⟨w2, hw2, hs2, hg2⟩
      · exact ofind x hxv



/-- `usize` values below `2^63` reinterpret as themselves in `i64`. -/
theorem usizeAsI64_small (n : Nat) (h : n < 2 ^ 63) : usizeAsI64 n = (n : Int) := by
  unfold usizeAsI64 USIZE
  rw [Nat.mod_eq_of_lt (by omega)]
  rw [if_pos (by omega)]

/-- `i64` wrapping is the identity inside the representable range. -/
theorem i64Wrap_small (z : Int) (h1 : -(2 ^ 63) ≤ z) (h2 : z < 2 ^ 63) :
    i64Wrap z = z := by
  unfold i64Wrap
  have h3 : (z + 2 ^ 63) % 2 ^ 64 = z + 2 ^ 63 :=
    Int.emod_eq_of_lt (by omega) (by omega)
  rw [h3]
  ring

/-- The live count never exceeds the occupied count. -/
theorem countLive_le_countOccupied (B : List MarkedElt) :
    countLive B ≤ countOccupied B := by
  unfold countLive countOccupied
  apply List.countP_mono_left
  intro x _ hx
  rw [Bool.and_eq_true] at hx
  exact hx.1

/-- The length of the live-entry list is the live count. -/
theorem length_liveElts (st : DenseHashTable) :
    (liveElts st).length = countLive st.buckets := by
  unfold liveElts countLive
  rw [← List.countP_eq_length_filter]

/-- A replicated-null bucket array has no occupied slot. -/
theorem countOccupied_replicate (n : Nat) :
    countOccupied (List.replicate n MarkedElt.null) = 0 := by
  unfold countOccupied
  rw [List.countP_eq_zero]
  intro x hx
  rw [List.eq_of_mem_replicate hx]
  decide

/-- A replicated-null bucket array has no live entry. -/
theorem filter_live_replicate (n : Nat) :
    (List.replicate n MarkedElt.null).filter
      (fun e => !e.is_null && !e.is_tombstone) = [] := by
  rw [List.filter_eq_nil_iff]
  intro x hx
  rw [List.eq_of_mem_replicate hx]
  decide



/-- The occupied count is bounded by the bucket count. -/
theorem countOccupied_le_length (B : List MarkedElt) :
    countOccupied B ≤ B.length := List.countP_le_length _

/-- `grow` on a well-formed table with distinct live keys: it succeeds,
the rebuilt table is tombstone-free, accurately counted, below half
occupancy, still a power of two in size, the live entries are preserved up
to permutation and each is findable afterwards, and the capacity follows
the double-or-compact policy. -/
theorem grow_clean (f : Nat) (st : DenseHashTable) (hinv : TableInv st)
    (hdk : LiveKeysDistinct st) :
    ∃ out, growWith (DenseHashTable.insert (f + 1)) st = some out ∧
      (∀ x ∈ out.buckets, x.is_tombstone = false) ∧
      out.set = countOccupied out.buckets ∧
      out.len = out.set ∧
      out.set = countLive st.buckets ∧
      2 * countOccupied out.buckets ≤ out.buckets.length ∧
      countOccupied out.buckets < out.buckets.length ∧
      (∃ e2, e2 ≤ 63 ∧ out.buckets.length = 2 ^ e2) ∧
      List.Perm (liveElts out) (liveElts st) ∧
      (∀ x ∈ liveElts st, Findable out x) ∧
      (st.buckets.length = 0 → out.buckets.length = 1) ∧
      (st.buckets.length ≠ 0 →
        ((st.buckets.length < 32 ∨
            i64Wrap (usizeAsI64 st.set - usizeAsI64 st.len) <
              usizeAsI64 st.buckets.length / 4) →
          out.buckets.length = 2 * st.buckets.length) ∧
        (¬(st.buckets.length < 32 ∨
            i64Wrap (usizeAsI64 st.set - usizeAsI64 st.len) <
              usizeAsI64 st.buckets.length / 4) →
          out.buckets.length = st.buckets.length ∧ out.set = out.len)) := by
  rcases hinv with ⟨hbe, hs0, hl0⟩ | ⟨⟨e, he, hlen⟩, hset, hlena, hocc⟩
  · -- empty table: push one null bucket
    refine ⟨⟨[MarkedElt.null], st.len, st.set⟩, ?_, ?_, ?_, ?_, ?_, ?_, ?_, ?_,
      ?_, ?_, ?_, ?_⟩
    · unfold growWith
      rw [if_pos (by rw [hbe]; rfl)]
      rw [hbe]
      rfl
    · intro x hx
      rw [List.mem_singleton] at hx
      rw [hx]
      decide
    · show st.set = countOccupied [MarkedElt.null]
      rw [hs0]
      rfl
    · show st.len = st.set
      rw [hs0, hl0]
    · show st.set = countLive st.buckets
      rw [hs0]
      unfold countLive
      rw [hbe]
      rfl
    · show 2 * countOccupied [MarkedElt.null] ≤ [MarkedElt.null].length
      decide
    · show countOccupied [MarkedElt.null] < [MarkedElt.null].length
      decide
    · exact ⟨0, by omega, rfl⟩
    · show List.Perm (List.filter _ [MarkedElt.null]) (liveElts st)
      unfold liveElts
      rw [hbe]
      decide
    · intro x hx
      unfold liveElts at hx
      rw [hbe] at hx
      simp at hx
    · intro _
      rfl
    · intro hne
      rw [hbe] at hne
      simp at hne
  · -- nonempty table
    have hl1 : 1 ≤ st.buckets.length := by
      rw [hlen]; exact Nat.pos_pow_of_pos e (by omega)
    have hlive_le : countLive st.buckets ≤ countOccupied st.buckets :=
      countLive_le_countOccupied st.buckets
    have hocc_le : countOccupied st.buckets ≤ st.buckets.length :=
      countOccupied_le_length st.buckets
    have hsmall : st.buckets.length ≤ 2 ^ 62 := by
      rw [hlen]; exact Nat.pow_le_pow_right (by omega) he
    by_cases hdb : st.buckets.length < 32 ∨
        i64Wrap (usizeAsI64 st.set - usizeAsI64 st.len) <
          usizeAsI64 st.buckets.length / 4
    · -- double
      have hdbb : (decide (st.buckets.length < 32) ||
          decide (i64Wrap (usizeAsI64 st.set - usizeAsI64 st.len) <
            usizeAsI64 st.buckets.length / 4)) = true := by
        rcases hdb with h | h
        · simp [h]
        · simp [h]
      have htake : ((st.buckets ++ List.replicate st.buckets.length
          MarkedElt.null).take st.buckets.length) = st.buckets :=
        List.take_left st.buckets _
      have hpow : 2 ^ (e + 1) = 2 * 2 ^ e := by ring
      have hlen2 : (st.buckets ++ List.replicate st.buckets.length
          MarkedElt.null).length = 2 ^ (e + 1) := by
        rw [List.length_append, List.length_replicate, hlen, hpow]
        omega
      obtain ⟨out, hfold, o1, o2, o3, o4, o5, operm, opres, ofind⟩ :=
        fold_clean f (e + 1) (by omega) (liveElts st)
          ⟨List.replicate (st.buckets ++ List.replicate st.buckets.length
            MarkedElt.null).length MarkedElt.null, 0, 0⟩
          (by rw [List.length_replicate]; exact hlen2)
          (by
            intro x hx
            rw [List.eq_of_mem_replicate hx]
            decide)
          (by
            show 0 = countOccupied (List.replicate _ MarkedElt.null)
            rw [countOccupied_replicate])
          rfl
          (by
            show 2 * (0 + (liveElts st).length) ≤ 2 ^ (e + 1)
            rw [length_liveElts, hpow]
            rw [hlen] at hocc_le
            omega)
          (by
            intro x hx
            unfold liveElts at hx
            rw [List.mem_filter, Bool.and_eq_true, Bool.not_eq_true',
              Bool.not_eq_true'] at hx
            exact ⟨hx.2.1, hx.2.2⟩)
          (by
            show (liveElts ⟨List.replicate _ MarkedElt.null, 0, 0⟩ ++
              liveElts st).Pairwise _
            have hnull : liveElts ⟨List.replicate (st.buckets ++
                List.replicate st.buckets.length MarkedElt.null).length
                MarkedElt.null, 0, 0⟩ = [] := filter_live_replicate _
            rw [hnull, List.nil_append]
            exact hdk)
      have hsetout : out.set = countLive st.buckets := by
        rw [o5, length_liveElts]
        exact Nat.zero_add _
      refine ⟨out, ?_, o2, o3, o4, hsetout, ?_, ?_, ⟨e + 1, by omega, o1⟩,
        ?_, ?_, ?_, ?_⟩
      · unfold growWith
        rw [if_neg (by omega)]
        simp only [hdbb, if_true]
        rw [htake]
        show (liveElts st).foldlM _ _ = some out
        exact hfold
      · rw [← o3, hsetout, o1, hpow]
        rw [hlen] at hocc_le
        omega
      · rw [← o3, hsetout, o1, hpow]
        rw [hlen] at hocc_le hl1
        omega
      · have hnull : liveElts ⟨List.replicate (st.buckets ++
            List.replicate st.buckets.length MarkedElt.null).length
            MarkedElt.null, 0, 0⟩ = [] := filter_live_replicate _
        have hperm := operm
        rw [hnull, List.nil_append] at hperm
        exact hperm
      · exact ofind
      · intro h0; omega
      · intro _
        refine ⟨fun _ => ?_, fun hcon => absurd hdb hcon⟩
        rw [o1, hlen, hpow]
    · -- compact in place
      push_neg at hdb
      obtain ⟨hge32, hcond⟩ := hdb
      have hdbb : (decide (st.buckets.length < 32) ||
          decide (i64Wrap (usizeAsI64 st.set - usizeAsI64 st.len) <
            usizeAsI64 st.buckets.length / 4)) = false := by
        simp only [Bool.or_eq_false_iff, decide_eq_false_iff_not]
        exact ⟨by omega, not_lt.mpr hcond⟩
      have hsetlt : st.set < 2 ^ 63 := by omega
      have hlenlt : st.len < 2 ^ 63 := by
        rw [hlena]
        omega
      have hlele : st.len ≤ st.set := by rw [hset, hlena]; exact hlive_le
      have hwrap : i64Wrap (usizeAsI64 st.set - usizeAsI64 st.len) =
          ((st.set - st.len : Nat) : Int) := by
        rw [usizeAsI64_small st.set hsetlt, usizeAsI64_small st.len hlenlt]
        rw [i64Wrap_small _ (by omega) (by push_cast; omega)]
        push_cast [hlele]
        omega
      have hdiv : usizeAsI64 st.buckets.length / 4 =
          ((st.buckets.length / 4 : Nat) : Int) := by
        rw [usizeAsI64_small st.buckets.length (by omega)]
        rfl
      have hnatcond : st.buckets.length / 4 ≤ st.set - st.len := by
        rw [hwrap, hdiv] at hcond
        exact_mod_cast hcond
      have hlive_small : 2 * countLive st.buckets + 2 ≤ st.buckets.length := by
        rw [← hlena]
        omega
      have htake : st.buckets.take st.buckets.length = st.buckets :=
        List.take_length st.buckets
      obtain ⟨out, hfold, o1, o2, o3, o4, o5, operm, opres, ofind⟩ :=
        fold_clean f e (by omega) (liveElts st)
          ⟨List.replicate st.buckets.length MarkedElt.null, 0, 0⟩
          (by rw [List.length_replicate]; exact hlen)
          (by
            intro x hx
            rw [List.eq_of_mem_replicate hx]
            decide)
          (by
            show 0 = countOccupied (List.replicate _ MarkedElt.null)
            rw [countOccupied_replicate])
          rfl
          (by
            show 2 * (0 + (liveElts st).length) ≤ 2 ^ e
            rw [length_liveElts, ← hlen]
            omega)
          (by
            intro x hx
            unfold liveElts at hx
            rw [List.mem_filter, Bool.and_eq_true, Bool.not_eq_true',
              Bool.not_eq_true'] at hx
            exact ⟨hx.2.1, hx.2.2⟩)
          (by
            show (liveElts ⟨List.replicate _ MarkedElt.null, 0, 0⟩ ++
              liveElts st).Pairwise _
            have hnull : liveElts ⟨List.replicate st.buckets.length
                MarkedElt.null, 0, 0⟩ = [] := filter_live_replicate _
            rw [hnull, List.nil_append]
            exact hdk)
      have hsetout : out.set = countLive st.buckets := by
        rw [o5, length_liveElts]
        exact Nat.zero_add _
      refine ⟨out, ?_, o2, o3, o4, hsetout, ?_, ?_, ⟨e, by omega, o1⟩,
        ?_, ?_, ?_, ?_⟩
      · unfold growWith
        rw [if_neg (by omega)]
        simp only [hdbb, Bool.false_eq_true, if_false]
        rw [htake]
        show (liveElts st).foldlM _ _ = some out
        exact hfold
      · rw [← o3, hsetout, o1, ← hlen]
        omega
      · rw [← o3, hsetout, o1, ← hlen]
        omega
      · have hnull : liveElts ⟨List.replicate st.buckets.length
            MarkedElt.null, 0, 0⟩ = [] := filter_live_replicate _
        have hperm := operm
        rw [hnull, List.nil_append] at hperm
        exact hperm
      · exact ofind
      · intro h0; omega
      · intro _
        refine ⟨fun hcon => ?_, fun _ => ⟨by rw [o1, ← hlen], by rw [o4]⟩⟩
        rcases hcon with h | h
        · omega
        · exact absurd h (not_lt.mpr hcond)


/-! Key-derivation arithmetic, totality of seek and insert, the
singleton-table replace scenario, and preservation of the sentinel
discipline along reachable states. -/

/-- Appending `k` zero bytes multiplies the big-endian value by `256 ^ k`. -/
theorem beBytes_append_zeros (xs : List Nat) (k : Nat) :
    beBytes (xs ++ List.replicate k 0) = beBytes xs * 256 ^ k := by
  induction k generalizing xs with
  | zero => simp [beBytes]
  | succ n ih =>
    have h1 : xs ++ List.replicate (n + 1) 0 =
        (xs ++ [0]) ++ List.replicate n 0 := by
      rw [List.append_assoc]
      rfl
    have h2 : beBytes (xs ++ [0]) = beBytes xs * 256 := by
      unfold beBytes
      rw [List.foldl_append, List.foldl_cons, List.foldl_nil]
      omega
    rw [h1, ih, h2]
    ring

/-- On a nonempty slice, `read_u64` returns exactly the specified key. -/
theorem read_u64_spec (bs : List Nat) (h : bs ≠ []) :
    read_u64 bs = some (specKey bs) := by
  unfold read_u64 specKey
  rw [if_neg (by simp [h])]
  rw [beBytes_append_zeros]

/-- On a table with a free slot, seek terminates at some slot. -/
theorem seek_total (st : DenseHashTable) (k e : Nat)
    (hlen : st.buckets.length = 2 ^ e) (he : e ≤ 64)
    (hocc : countOccupied st.buckets < st.buckets.length) :
    ∃ w, w < st.buckets.length ∧ (st.seek k).2 = some w := by
  have hpos : 0 < 2 ^ e := Nat.pos_pow_of_pos e (by omega)
  obtain ⟨j, hj, hjn⟩ := exists_null_slot st.buckets hocc
  obtain ⟨t, htlt, hslot⟩ := probeSlot_surj (fnvHash64 k) e j he (by omega)
  have hcond : (st.buckets.getD (probeSlot (fnvHash64 k) st.buckets.length t)
        MarkedElt.null).is_null = true ∨
      ((st.buckets.getD (probeSlot (fnvHash64 k) st.buckets.length t)
        MarkedElt.null).is_tombstone = false ∧
       (st.buckets.getD (probeSlot (fnvHash64 k) st.buckets.length t)
        MarkedElt.null).key = k) := by
    left
    rw [hlen, hslot]
    exact hjn
  have hsome := seekAux_finds st.buckets k (fnvHash64 k) st.buckets.length
    st.buckets.length 0 none t (by omega) (by omega) hcond
  rw [← seek_def] at hsome
  obtain ⟨w, hw⟩ := Option.isSome_iff_exists.mp hsome
  refine ⟨w, ?_, hw⟩
  have hle := seekAux_snd_le st.buckets k (fnvHash64 k) st.buckets.length
    st.buckets.length 0 none w (by rw [seek_def] at hw; exact hw)
  omega

/-- A well-formed table absorbs any entry with two spare fuel levels. -/
theorem insert_total (f : Nat) (st : DenseHashTable) (t : MarkedElt)
    (hinv : TableInv st) (hdk : LiveKeysDistinct st) :
    ∃ st' res, DenseHashTable.insert (f + 2) st t = some (st', res) := by
  rw [insert_succ]
  by_cases hcond : st.set ≥ st.buckets.length / 2
  · rw [if_pos hcond]
    obtain ⟨out, hgrow, _, hsetc, _, _, _, hlt, ⟨e2, he2, hl2⟩, _, _, _, _⟩ :=
      grow_clean f st hinv hdk
    rw [hgrow]
    simp only [Option.some_bind]
    obtain ⟨w, hwlt, hw⟩ := seek_total out t.key e2 hl2 (by omega) hlt
    rw [hw]
    dsimp only
    split
    · split
      · exact ⟨_, _, rfl⟩
      · exact ⟨_, _, rfl⟩
    · exact ⟨_, _, rfl⟩
  · rw [if_neg hcond]
    push_neg at hcond
    rcases hinv with ⟨hbe, hs0, _⟩ | ⟨⟨e, he, hlen⟩, hset, _, _⟩
    · rw [hbe, hs0] at hcond
      simp at hcond
    · have hpos : 0 < 2 ^ e := Nat.pos_pow_of_pos e (by omega)
      simp only [Option.some_bind]
      obtain ⟨w, hwlt, hw⟩ := seek_total st t.key e hlen (by omega)
        (by rw [← hset]; omega)
      rw [hw]
      dsimp only
      split
      · split
        · exact ⟨_, _, rfl⟩
        · exact ⟨_, _, rfl⟩
      · exact ⟨_, _, rfl⟩

/-- Seeking any key in the one-bucket table with a single null slot
terminates immediately at slot 0 with no tombstone recorded. -/
theorem seek_one_null (k : Nat) :
    DenseHashTable.seek ⟨[MarkedElt.null], 0, 0⟩ k = (none, some 0) := by
  have h : ∀ h', seekAux [MarkedElt.null] k h' 1 0 none 1 = (none, some 0) := by
    intro h'
    rw [seekAux_succ]
    have hix : probeSlot h' 1 0 = 0 := by
      unfold probeSlot
      exact Nat.and_zero _
    rw [hix]
    rfl
  rw [seek_def]
  exact h (fnvHash64 k)

/-- Inserting any entry into the fresh empty table allocates one bucket and
writes the entry into it. -/
theorem insert_empty (f : Nat) (t : MarkedElt) :
    DenseHashTable.insert (f + 2) DenseHashTable.new t =
      some (⟨[t], 1, 1⟩, none) := by
  rw [insert_succ]
  rw [if_pos (by decide)]
  have hg : growWith (DenseHashTable.insert (f + 1)) DenseHashTable.new =
      some ⟨[MarkedElt.null], 0, 0⟩ := by
    unfold growWith
    rw [if_pos (by decide)]
    rfl
  rw [hg]
  simp only [Option.some_bind]
  rw [seek_one_null t.key]
  rfl

/-- A first `replace` on a fresh cache builds the one-entry table and
returns no prior. -/
theorem replace_new (f : Nat) (bs : List Nat) (k : Nat) (r : MarkedPtr)
    (hk : read_u64 bs = some k) (hr : r.is_null = false) :
    HashSetPrefixCache.replace (f + 2) HashSetPrefixCache.new bs r =
      some (⟨⟨[⟨k, r⟩], 1, 1⟩⟩, none) := by
  unfold HashSetPrefixCache.replace
  rw [hk]
  rw [hr]
  simp only [Bool.false_eq_true, if_false]
  have htbl : HashSetPrefixCache.new.tbl = DenseHashTable.new := rfl
  rw [htbl, insert_empty f ⟨k, r⟩]
  rfl

/-- The one-entry table holding a caller-supplied reference satisfies the
representation invariant and has distinct live keys. -/
theorem singleton_inv (k : Nat) (r : MarkedPtr) (hg : GoodPtr r) :
    TableInv ⟨[⟨k, r⟩], 1, 1⟩ ∧ LiveKeysDistinct ⟨[⟨k, r⟩], 1, 1⟩ := by
  obtain ⟨h0, hs⟩ := hg
  have hn : MarkedElt.is_null ⟨k, r⟩ = false := elt_is_null_false k r (by omega)
  have ht : MarkedElt.is_tombstone ⟨k, r⟩ = false := by
    refine elt_is_tombstone_false k r ?_
    unfold MARKED_TOMBSTONE USIZE at *
    omega
  constructor
  · right
    refine ⟨⟨0, by omega, rfl⟩, ?_, ?_, by show (2 : Nat) * 1 ≤ 1 + 2; omega⟩
    · show (1 : Nat) = countOccupied [⟨k, r⟩]
      unfold countOccupied
      simp [hn]
    · show (1 : Nat) = countLive [⟨k, r⟩]
      unfold countLive
      simp [hn, ht]
  · unfold LiveKeysDistinct liveElts
    simp [hn, ht]

/-- A second `replace` of the same key on the one-entry table grows the
table, refinds the entry and returns the previously stored reference. -/
theorem replace_singleton_prior (f : Nat) (bs : List Nat) (k : Nat)
    (r1 r2 : MarkedPtr) (hk : read_u64 bs = some k)
    (h1 : GoodPtr r1) (h2 : GoodPtr r2) :
    ∃ c2, HashSetPrefixCache.replace (f + 2) ⟨⟨[⟨k, r1⟩], 1, 1⟩⟩ bs r2 =
      some (c2, some r1) := by
  obtain ⟨hinv, hdk⟩ := singleton_inv k r1 h1
  have hn1 : MarkedElt.is_null ⟨k, r1⟩ = false :=
    elt_is_null_false k r1 (by have := h1.1; omega)
  have ht1 : MarkedElt.is_tombstone ⟨k, r1⟩ = false := by
    refine elt_is_tombstone_false k r1 ?_
    have := h1.2
    unfold MARKED_TOMBSTONE USIZE at *
    omega
  obtain ⟨out, hgrow, _, _, _, _, _, _, _, _, hfind, _, _⟩ :=
    grow_clean f ⟨[⟨k, r1⟩], 1, 1⟩ hinv hdk
  have hmem : (⟨k, r1⟩ : MarkedElt) ∈ liveElts ⟨[⟨k, r1⟩], 1, 1⟩ := by
    unfold liveElts
    simp [hn1, ht1]
  obtain ⟨w, hwlt, hww, hwget⟩ := hfind _ hmem
  unfold HashSetPrefixCache.replace
  rw [hk]
  rw [is_null_false_of_raw r2 (by have := h2.1; omega)]
  simp only [Bool.false_eq_true, if_false]
  rw [insert_succ]
  have hge : (⟨[⟨k, r1⟩], 1, 1⟩ : DenseHashTable).set ≥
      (⟨[⟨k, r1⟩], 1, 1⟩ : DenseHashTable).buckets.length / 2 := by simp
  rw [if_pos hge, hgrow]
  simp only [Option.some_bind]
  have hkey1 : MarkedElt.key ⟨k, r1⟩ = k := rfl
  have hkey2 : MarkedElt.key ⟨k, r2⟩ = k := rfl
  rw [hkey1] at hww
  rw [hkey2, hww]
  dsimp only
  rw [hwget, hn1]
  simp only [Bool.false_eq_true, if_false]
  exact ⟨_, rfl⟩

/-- Writing an allowed entry anywhere preserves the sentinel discipline. -/
theorem okElt_set (B : List MarkedElt) (w : Nat) (t : MarkedElt)
    (hB : ∀ x ∈ B, OkElt x) (ht : OkElt t) : ∀ x ∈ B.set w t, OkElt x := by
  intro x hx
  rcases List.mem_or_eq_of_mem_set hx with hm | he
  · exact hB x hm
  · rw [he]
    exact ht

/-- The reinsertion fold preserves the sentinel discipline, given that the
inserter does. -/
theorem foldlM_ok
    (ins : DenseHashTable → MarkedElt → Option (DenseHashTable × Option MarkedElt))
    (hins : ∀ st t st' res, (∀ x ∈ st.buckets, OkElt x) → OkElt t →
      ins st t = some (st', res) → ∀ x ∈ st'.buckets, OkElt x) :
    ∀ (v : List MarkedElt) (acc out : DenseHashTable),
      (∀ x ∈ acc.buckets, OkElt x) → (∀ x ∈ v, OkElt x) →
      v.foldlM (fun acc e => (ins acc e).bind (fun r => some r.1)) acc =
        some out →
      ∀ x ∈ out.buckets, OkElt x := by
  intro v
  induction v with
  | nil =>
    intro acc out ha _ h
    rw [List.foldlM_nil] at h
    cases h
    exact ha
  | cons e v ih =>
    intro acc out ha hv h
    rw [List.foldlM_cons] at h
    cases hstep : ins acc e with
    | none => rw [hstep] at h; exact absurd h (by simp)
    | some pr =>
      obtain ⟨st1, r⟩ := pr
      rw [hstep] at h
      simp only [Option.some_bind] at h
      exact ih st1 out
        (hins acc e st1 r ha (hv e (by simp)) hstep)
        (fun x hx => hv x (by simp [hx])) h

/-- `grow` preserves the sentinel discipline, given that the inserter
does. -/
theorem growWith_ok
    (ins : DenseHashTable → MarkedElt → Option (DenseHashTable × Option MarkedElt))
    (hins : ∀ st t st' res, (∀ x ∈ st.buckets, OkElt x) → OkElt t →
      ins st t = some (st', res) → ∀ x ∈ st'.buckets, OkElt x)
    (st out : DenseHashTable) (hB : ∀ x ∈ st.buckets, OkElt x)
    (h : growWith ins st = some out) : ∀ x ∈ out.buckets, OkElt x := by
  unfold growWith at h
  split at h
  · cases h
    intro x hx
    simp only [List.mem_append, List.mem_singleton] at hx
    rcases hx with hm | he
    · exact hB x hm
    · rw [he]
      exact Or.inl rfl
  · refine foldlM_ok ins hins _ _ out ?_ ?_ h
    · intro x hx
      rw [List.eq_of_mem_replicate hx]
      exact Or.inl rfl
    · intro x hx
      have hx2 := List.mem_of_mem_take (List.mem_of_mem_filter hx)
      split at hx2
      · rcases List.mem_append.mp hx2 with hm | hr
        · exact hB x hm
        · rw [List.eq_of_mem_replicate hr]
          exact Or.inl rfl
      · exact hB x hx2

/-- `insert` preserves the sentinel discipline. -/
theorem insert_ok : ∀ (fuel : Nat) (st : DenseHashTable) (t : MarkedElt)
    (st' : DenseHashTable) (res : Option MarkedElt),
    (∀ x ∈ st.buckets, OkElt x) → OkElt t →
    DenseHashTable.insert fuel st t = some (st', res) →
    ∀ x ∈ st'.buckets, OkElt x := by
  intro fuel
  induction fuel with
  | zero =>
    intro st t st' res _ _ h
    exact absurd h (by simp [insert_zero])
  | succ f ih =>
    intro st t st' res hB ht h
    rw [insert_succ] at h
    cases hg : (if st.set ≥ st.buckets.length / 2 then
        growWith (DenseHashTable.insert f) st else some st) with
    | none => rw [hg] at h; exact absurd h (by simp)
    | some st1 =>
      rw [hg] at h
      simp only [Option.some_bind] at h
      have hB1 : ∀ x ∈ st1.buckets, OkElt x := by
        split at hg
        · exact growWith_ok _ ih st st1 hB hg
        · cases hg
          exact hB
      split at h
      · exact absurd h (by simp)
      · split at h
        · split at h
          · cases h
            exact okElt_set _ _ _ hB1 ht
          · cases h
            exact okElt_set _ _ _ hB1 ht
        · cases h
          exact okElt_set _ _ _ hB1 ht

/-- `delete` preserves the sentinel discipline. -/
theorem delete_ok (st : DenseHashTable) (k : Nat)
    (hB : ∀ x ∈ st.buckets, OkElt x) :
    ∀ x ∈ (st.delete k).1.buckets, OkElt x := by
  unfold DenseHashTable.delete
  split
  · exact hB
  · split
    · exact hB
    · dsimp only
      split
      · exact hB
      · exact okElt_set _ _ _ hB (Or.inr (Or.inl rfl))

/-- Every reachable cache state obeys the sentinel discipline. -/
theorem reach_ok (c : HashSetPrefixCache) (h : Reach c) :
    ∀ x ∈ c.tbl.buckets, OkElt x := by
  induction h with
  | new =>
    intro x hx
    exact absurd hx (by simp [HashSetPrefixCache.new, DenseHashTable.new])
  | insert hr hp hop ih =>
    next c0 c' fuel bs p =>
      unfold HashSetPrefixCache.insert at hop
      cases hk : read_u64 bs with
      | none => rw [hk] at hop; exact absurd hop (by simp)
      | some k =>
        rw [hk] at hop
        dsimp only at hop
        by_cases hpn : p.is_null = true
        · rw [if_pos hpn] at hop
          cases hop
          exact delete_ok c0.tbl k ih
        · rw [if_neg hpn] at hop
          have hgood : GoodPtr p := by
            rcases hp with h0 | h0
            · exact absurd h0 hpn
            · exact h0
          cases hins : DenseHashTable.insert fuel c0.tbl ⟨k, p⟩ with
          | none => rw [hins] at hop; exact absurd hop (by simp)
          | some pr =>
            obtain ⟨t1, res1⟩ := pr
            rw [hins] at hop
            cases hop
            exact insert_ok fuel c0.tbl ⟨k, p⟩ t1 res1 ih
              (Or.inr (Or.inr hgood)) hins
  | replace hr hp hop ih =>
    next c0 c' fuel bs p out =>
      unfold HashSetPrefixCache.replace at hop
      cases hk : read_u64 bs with
      | none => rw [hk] at hop; exact absurd hop (by simp)
      | some k =>
        rw [hk] at hop
        dsimp only at hop
        by_cases hpn : p.is_null = true
        · rw [if_pos hpn] at hop
          rw [Option.some_inj, Prod.mk.injEq] at hop
          rw [← hop.1]
          exact delete_ok c0.tbl k ih
        · rw [if_neg hpn] at hop
          have hgood : GoodPtr p := by
            rcases hp with h0 | h0
            · exact absurd h0 hpn
            · exact h0
          cases hins : DenseHashTable.insert fuel c0.tbl ⟨k, p⟩ with
          | none => rw [hins] at hop; exact absurd hop (by simp)
          | some pr =>
            obtain ⟨t1, res1⟩ := pr
            rw [hins] at hop
            dsimp only at hop
            rw [Option.some_inj, Prod.mk.injEq] at hop
            rw [← hop.1]
            exact insert_ok fuel c0.tbl ⟨k, p⟩ t1 res1 ih
              (Or.inr (Or.inr hgood)) hins

/-! Totality machinery over the weak invariant (power-of-two capacity and
accurate `set`), which holds at every reachable state, corrupted `len`,
tombstone churn and duplicate live keys included. -/

/-- Writing a non-null entry over a non-null slot keeps the occupied
count. -/
theorem countOccupied_set_swap (B : List MarkedElt) (w : Nat) (t : MarkedElt)
    (hw : w < B.length) (hold : (B.getD w MarkedElt.null).is_null = false)
    (ht : t.is_null = false) :
    countOccupied (B.set w t) = countOccupied B := by
  rw [List.set_eq_take_cons_drop t hw]
  conv_rhs => rw [split_at_ix B w hw]
  unfold countOccupied
  rw [List.countP_append, List.countP_append, List.countP_cons, List.countP_cons]
  rw [List.getD_eq_getElem?_getD] at hold
  simp [hold, ht]

/-- On a tombstone-free list the live count equals the occupied count. -/
theorem countLive_eq_occupied (B : List MarkedElt)
    (htf : ∀ x ∈ B, x.is_tombstone = false) :
    countLive B = countOccupied B := by
  unfold countLive countOccupied
  induction B with
  | nil => rfl
  | cons a l ih =>
    rw [List.countP_cons, List.countP_cons, htf a (by simp),
      ih (fun x hx => htf x (by simp [hx]))]
    simp

/-- The write phase of a fuelled `insert` whose grow decision resolved to
`st1`: on a tombstone-free, accurately counted table with a free slot it
succeeds, stays tombstone-free and accurately counted, and raises `set` by
at most one. -/
theorem insert_after (f : Nat) (st0 st1 : DenseHashTable) (t : MarkedElt)
    (e : Nat)
    (hmid : (if st0.set ≥ st0.buckets.length / 2 then
        growWith (DenseHashTable.insert f) st0 else some st0) = some st1)
    (hlen : st1.buckets.length = 2 ^ e) (he : e ≤ 63)
    (htf : ∀ x ∈ st1.buckets, x.is_tombstone = false)
    (hset : st1.set = countOccupied st1.buckets)
    (hocc : countOccupied st1.buckets < st1.buckets.length)
    (hls : st1.len = st1.set)
    (htn : t.is_null = false) (htt : t.is_tombstone = false) :
    ∃ st' res, DenseHashTable.insert (f + 1) st0 t = some (st', res) ∧
      st'.buckets.length = st1.buckets.length ∧
      (∀ x ∈ st'.buckets, x.is_tombstone = false) ∧
      st'.set = countOccupied st'.buckets ∧
      st'.len = st'.set ∧
      st'.set ≤ st1.set + 1 := by
  have hsmall : st1.buckets.length ≤ 2 ^ 63 := by
    rw [hlen]
    exact Nat.pow_le_pow_right (by omega) he
  have hsetsmall : st1.set + 1 < USIZE := by
    unfold USIZE
    have : (2 : Nat) ^ 63 < 2 ^ 64 := by norm_num
    omega
  obtain ⟨w, hwlt, hw⟩ := seek_total st1 t.key e hlen (by omega) hocc
  have hfst : (st1.seek t.key).1 = none := by
    rw [seek_def]
    exact seekAux_fst_none st1.buckets t.key _ _ htf _ _
  rw [insert_succ, hmid]
  simp only [Option.some_bind]
  rw [hw]
  dsimp only
  cases hb : (st1.buckets.getD w MarkedElt.null).is_null with
  | true =>
    rw [if_pos rfl, hfst]
    refine ⟨_, _, rfl, ?_, ?_, ?_, ?_, ?_⟩
    · simp
    · intro x hx
      rcases List.mem_or_eq_of_mem_set hx with hm | he2
      · exact htf x hm
      · rw [he2]
        exact htt
    · show (st1.set + 1) % USIZE = countOccupied (st1.buckets.set w t)
      rw [countOccupied_set st1.buckets w t hwlt hb htn, ← hset]
      exact Nat.mod_eq_of_lt hsetsmall
    · show (st1.len + 1) % USIZE = (st1.set + 1) % USIZE
      rw [hls]
    · show (st1.set + 1) % USIZE ≤ st1.set + 1
      exact Nat.mod_le _ _
  | false =>
    rw [if_neg Bool.false_ne_true]
    refine ⟨_, _, rfl, ?_, ?_, ?_, ?_, ?_⟩
    · simp
    · intro x hx
      rcases List.mem_or_eq_of_mem_set hx with hm | he2
      · exact htf x hm
      · rw [he2]
        exact htt
    · show st1.set = countOccupied (st1.buckets.set w t)
      rw [countOccupied_set_swap st1.buckets w t hwlt hb htn]
      exact hset
    · show st1.len = st1.set
      exact hls
    · show st1.set ≤ st1.set + 1
      omega

/-- A reinsertion fold whose elements all fit below half capacity never
triggers a resize and keeps the rebuild bookkeeping. -/
theorem fold_go (f : Nat) :
    ∀ (v : List MarkedElt) (acc : DenseHashTable) (e : Nat),
      e ≤ 63 → acc.buckets.length = 2 ^ e →
      (∀ x ∈ acc.buckets, x.is_tombstone = false) →
      acc.set = countOccupied acc.buckets →
      acc.len = acc.set →
      2 * (acc.set + v.length) ≤ acc.buckets.length →
      (∀ x ∈ v, x.is_null = false ∧ x.is_tombstone = false) →
      ∃ out,
        v.foldlM (fun acc e => (DenseHashTable.insert (f + 1) acc e).bind
            (fun r => some r.1)) acc = some out ∧
        out.buckets.length = acc.buckets.length ∧
        (∀ x ∈ out.buckets, x.is_tombstone = false) ∧
        out.set = countOccupied out.buckets ∧
        out.len = out.set ∧
        out.set ≤ acc.set + v.length := by
  intro v
  induction v with
  | nil =>
    intro acc e he hlen htf hset hls hcap hv
    exact ⟨acc, by simp [List.foldlM_nil], rfl, htf, hset, hls, by omega⟩
  | cons t v ih =>
    intro acc e he hlen htf hset hls hcap hv
    have hpos : 0 < 2 ^ e := Nat.pos_pow_of_pos e (by omega)
    have hl1 : 1 ≤ acc.buckets.length := by rw [hlen]; exact hpos
    have hcapL : acc.set < acc.buckets.length / 2 := by
      simp only [List.length_cons] at hcap
      omega
    obtain ⟨st', res, hins, hlen', htf', hset', hls', hbound⟩ :=
      insert_after f acc acc t e (by rw [if_neg (by omega)]) hlen he htf hset
        (by rw [← hset]; omega) hls (hv t (by simp)).1 (hv t (by simp)).2
    rw [List.foldlM_cons, hins]
    simp only [Option.some_bind]
    obtain ⟨out, hfold, o1, o2, o3, o4, o5⟩ := ih st' e he (by rw [hlen', hlen])
      htf' hset' hls'
      (by
        rw [hlen']
        simp only [List.length_cons] at hcap
        omega)
      (fun x hx => hv x (by simp [hx]))
    refine ⟨out, hfold, by rw [o1, hlen'], o2, o3, o4, ?_⟩
    simp only [List.length_cons]
    omega

/-- `grow` on a tombstone-free table whose `set` and `len` agree always
takes the doubling branch and succeeds, keeping the rebuild bookkeeping. -/
theorem growWith_dbl (f : Nat) (st : DenseHashTable) (e : Nat)
    (he : e ≤ 62) (hlen : st.buckets.length = 2 ^ e)
    (htf : ∀ x ∈ st.buckets, x.is_tombstone = false)
    (hset : st.set = countOccupied st.buckets)
    (hls : st.len = st.set) :
    ∃ out, growWith (DenseHashTable.insert (f + 1)) st = some out ∧
      out.buckets.length = 2 * st.buckets.length ∧
      (∀ x ∈ out.buckets, x.is_tombstone = false) ∧
      out.set = countOccupied out.buckets ∧
      out.len = out.set ∧
      out.set ≤ st.set := by
  have hpos : 0 < 2 ^ e := Nat.pos_pow_of_pos e (by omega)
  have hl1 : 1 ≤ st.buckets.length := by rw [hlen]; exact hpos
  have hocc_le : countOccupied st.buckets ≤ st.buckets.length :=
    countOccupied_le_length st.buckets
  have hsmall : st.buckets.length ≤ 2 ^ 62 := by
    rw [hlen]
    exact Nat.pow_le_pow_right (by omega) he
  have hdbb : (decide (st.buckets.length < 32) ||
      decide (i64Wrap (usizeAsI64 st.set - usizeAsI64 st.len) <
        usizeAsI64 st.buckets.length / 4)) = true := by
    by_cases h32 : st.buckets.length < 32
    · simp [h32]
    · have hzero : i64Wrap (usizeAsI64 st.set - usizeAsI64 st.len) = 0 := by
        rw [hls, sub_self]
        rw [i64Wrap_small 0 (by norm_num) (by norm_num)]
      have hdiv : (0 : Int) < usizeAsI64 st.buckets.length / 4 := by
        rw [usizeAsI64_small st.buckets.length (by
          have h2 : (2 : Nat) ^ 62 < 2 ^ 63 := by norm_num
          omega)]
        push_neg at h32
        have h32i : (32 : Int) ≤ (st.buckets.length : Int) := by
          exact_mod_cast h32
        omega
      rw [hzero]
      simp [hdiv]
  have hfl : (liveElts st).length = countLive st.buckets := length_liveElts st
  have hlive_le : countLive st.buckets ≤ countOccupied st.buckets :=
    countLive_le_countOccupied st.buckets
  have htake : ((st.buckets ++ List.replicate st.buckets.length
      MarkedElt.null).take st.buckets.length) = st.buckets :=
    List.take_left st.buckets _
  have hlen2 : (List.replicate (st.buckets ++ List.replicate
      st.buckets.length MarkedElt.null).length MarkedElt.null).length =
      2 ^ (e + 1) := by
    rw [List.length_replicate, List.length_append, List.length_replicate,
      hlen]
    ring
  obtain ⟨out, hfold, o1, o2, o3, o4, o5⟩ := fold_go f (liveElts st)
    ⟨List.replicate (st.buckets ++ List.replicate st.buckets.length
      MarkedElt.null).length MarkedElt.null, 0, 0⟩ (e + 1) (by omega)
    hlen2
    (fun x hx => by rw [List.eq_of_mem_replicate hx]; decide)
    (by
      show (0 : Nat) = countOccupied (List.replicate _ MarkedElt.null)
      rw [countOccupied_replicate])
    rfl
    (by
      show 2 * (0 + (liveElts st).length) ≤ _
      rw [hfl, hlen2]
      have : (2 : Nat) ^ (e + 1) = 2 * 2 ^ e := by ring
      omega)
    (fun x hx => by
      unfold liveElts at hx
      rw [List.mem_filter, Bool.and_eq_true, Bool.not_eq_true',
        Bool.not_eq_true'] at hx
      exact ⟨hx.2.1, hx.2.2⟩)
  refine ⟨out, ?_, ?_, o2, o3, o4, ?_⟩
  · unfold growWith
    rw [if_neg (by omega)]
    simp only [hdbb, if_true]
    rw [htake]
    show (liveElts st).foldlM _ _ = some out
    exact hfold
  · rw [o1]
    show (List.replicate _ MarkedElt.null).length = 2 * st.buckets.length
    rw [hlen2, hlen]
    ring
  · show out.set ≤ st.set
    rw [hset]
    have o5b : out.set ≤ 0 + (liveElts st).length := o5
    rw [hfl] at o5b
    omega

/-- A reinsertion fold that may exceed half capacity: at most one resize
triggers mid-fold and the fold still succeeds, ending at most half full. -/
theorem fold_mix (f : Nat) :
    ∀ (v : List MarkedElt) (acc : DenseHashTable) (e : Nat),
      e ≤ 62 → acc.buckets.length = 2 ^ e →
      (∀ x ∈ acc.buckets, x.is_tombstone = false) →
      acc.set = countOccupied acc.buckets →
      acc.len = acc.set →
      2 * acc.set ≤ acc.buckets.length →
      acc.set + v.length ≤ acc.buckets.length →
      (∀ x ∈ v, x.is_null = false ∧ x.is_tombstone = false) →
      ∃ out e2, v.foldlM (fun acc e => (DenseHashTable.insert (f + 2) acc e).bind
          (fun r => some r.1)) acc = some out ∧
        e2 ≤ 63 ∧ out.buckets.length = 2 ^ e2 ∧
        out.set = countOccupied out.buckets ∧
        2 * out.set ≤ out.buckets.length := by
  intro v
  induction v with
  | nil =>
    intro acc e he hlen htf hset hls hhalf hcap hv
    exact ⟨acc, e, by simp [List.foldlM_nil], by omega, hlen, hset, hhalf⟩
  | cons t v ih =>
    intro acc e he hlen htf hset hls hhalf hcap hv
    have hpos : 0 < 2 ^ e := Nat.pos_pow_of_pos e (by omega)
    have hl1 : 1 ≤ acc.buckets.length := by rw [hlen]; exact hpos
    by_cases htr : acc.set ≥ acc.buckets.length / 2
    · obtain ⟨g1, hg1, g1len, g1tf, g1set, g1ls, g1bound⟩ :=
        growWith_dbl f acc e he hlen htf hset hls
      have hg1len : g1.buckets.length = 2 ^ (e + 1) := by
        rw [g1len, hlen]
        ring
      obtain ⟨st', res, hins, hlen', htf', hset', hls', hbound⟩ :=
        insert_after (f + 1) acc g1 t (e + 1)
          (by rw [if_pos htr]; exact hg1)
          hg1len (by omega) g1tf g1set
          (by rw [← g1set, g1len]; omega)
          g1ls (hv t (by simp)).1 (hv t (by simp)).2
      rw [List.foldlM_cons, hins]
      simp only [Option.some_bind]
      obtain ⟨out, hfold, o1, o2, o3, o4, o5⟩ := fold_go (f + 1) v st' (e + 1)
        (by omega) (by rw [hlen', hg1len]) htf' hset' hls'
        (by
          rw [hlen', g1len]
          simp only [List.length_cons] at hcap
          omega)
        (fun x hx => hv x (by simp [hx]))
      refine ⟨out, e + 1, hfold, by omega, by rw [o1, hlen', hg1len], o3, ?_⟩
      rw [o1, hlen', g1len]
      simp only [List.length_cons] at hcap
      omega
    · push_neg at htr
      obtain ⟨st', res, hins, hlen', htf', hset', hls', hbound⟩ :=
        insert_after (f + 1) acc acc t e (by rw [if_neg (by omega)]) hlen
          (by omega) htf hset (by rw [← hset]; omega) hls
          (hv t (by simp)).1 (hv t (by simp)).2
      rw [List.foldlM_cons, hins]
      simp only [Option.some_bind]
      obtain ⟨out, e2, hfold, o0, o1, o2, o3⟩ := ih st' e he
        (by rw [hlen', hlen]) htf' hset' hls'
        (by rw [hlen']; omega)
        (by
          rw [hlen']
          simp only [List.length_cons] at hcap
          omega)
        (fun x hx => hv x (by simp [hx]))
      exact ⟨out, e2, hfold, o0, o1, o2, o3⟩

/-- The weak invariant every reachable table satisfies (the spec's `Vec`
size bound and set-counts-occupied; nothing about `len`, tombstones or key
distinctness): `grow` succeeds and leaves an accurately counted table with
a free slot. -/
theorem growWith_weak (f : Nat) (st : DenseHashTable)
    (hpow : st.buckets = [] ∨ ∃ e, e ≤ 62 ∧ st.buckets.length = 2 ^ e)
    (hset : st.set = countOccupied st.buckets) :
    ∃ out, growWith (DenseHashTable.insert (f + 2)) st = some out ∧
      (∃ e2, e2 ≤ 63 ∧ out.buckets.length = 2 ^ e2) ∧
      out.set = countOccupied out.buckets ∧
      countOccupied out.buckets < out.buckets.length := by
  rcases hpow with hbe | ⟨e, he, hlen⟩
  · refine ⟨⟨[MarkedElt.null], st.len, st.set⟩, ?_, ⟨0, by omega, rfl⟩, ?_, ?_⟩
    · unfold growWith
      rw [if_pos (by rw [hbe]; rfl), hbe]
      rfl
    · show st.set = countOccupied [MarkedElt.null]
      rw [hset, hbe]
      rfl
    · show countOccupied [MarkedElt.null] < 1
      decide
  · have hpos : 0 < 2 ^ e := Nat.pos_pow_of_pos e (by omega)
    have hl1 : 1 ≤ st.buckets.length := by rw [hlen]; exact hpos
    have hocc_le : countOccupied st.buckets ≤ st.buckets.length :=
      countOccupied_le_length st.buckets
    have hfl : (liveElts st).length = countLive st.buckets := length_liveElts st
    have hlive_le : countLive st.buckets ≤ countOccupied st.buckets :=
      countLive_le_countOccupied st.buckets
    cases hdb : (decide (st.buckets.length < 32) ||
        decide (i64Wrap (usizeAsI64 st.set - usizeAsI64 st.len) <
          usizeAsI64 st.buckets.length / 4)) with
    | true =>
      have htake : ((st.buckets ++ List.replicate st.buckets.length
          MarkedElt.null).take st.buckets.length) = st.buckets :=
        List.take_left st.buckets _
      have hlen2 : (List.replicate (st.buckets ++ List.replicate
          st.buckets.length MarkedElt.null).length MarkedElt.null).length =
          2 ^ (e + 1) := by
        rw [List.length_replicate, List.length_append, List.length_replicate,
          hlen]
        ring
      obtain ⟨out, hfold, o1, o2, o3, o4, o5⟩ := fold_go (f + 1) (liveElts st)
        ⟨List.replicate (st.buckets ++ List.replicate st.buckets.length
          MarkedElt.null).length MarkedElt.null, 0, 0⟩ (e + 1) (by omega)
        hlen2
        (fun x hx => by rw [List.eq_of_mem_replicate hx]; decide)
        (by
          show (0 : Nat) = countOccupied (List.replicate _ MarkedElt.null)
          rw [countOccupied_replicate])
        rfl
        (by
          show 2 * (0 + (liveElts st).length) ≤ _
          rw [hfl, hlen2]
          have hp : (2 : Nat) ^ (e + 1) = 2 * 2 ^ e := by ring
          omega)
        (fun x hx => by
          unfold liveElts at hx
          rw [List.mem_filter, Bool.and_eq_true, Bool.not_eq_true',
            Bool.not_eq_true'] at hx
          exact ⟨hx.2.1, hx.2.2⟩)
      refine ⟨out, ?_, ⟨e + 1, by omega, by rw [o1, hlen2]⟩, o3, ?_⟩
      · unfold growWith
        rw [if_neg (by omega)]
        simp only [hdb, if_true]
        rw [htake]
        show (liveElts st).foldlM _ _ = some out
        exact hfold
      · rw [← o3, o1, hlen2]
        have o5b : out.set ≤ 0 + (liveElts st).length := o5
        rw [hfl] at o5b
        have hp : (2 : Nat) ^ (e + 1) = 2 * 2 ^ e := by ring
        omega
    | false =>
      have htake : st.buckets.take st.buckets.length = st.buckets :=
        List.take_length st.buckets
      obtain ⟨out, e2, hfold, o0, o1, o2, o3⟩ := fold_mix f (liveElts st)
        ⟨List.replicate st.buckets.length MarkedElt.null, 0, 0⟩ e he
        (by rw [List.length_replicate, hlen])
        (fun x hx => by rw [List.eq_of_mem_replicate hx]; decide)
        (by
          show (0 : Nat) = countOccupied (List.replicate _ MarkedElt.null)
          rw [countOccupied_replicate])
        rfl
        (by
          show 2 * 0 ≤ _
          omega)
        (by
          show 0 + (liveElts st).length ≤ (List.replicate _ MarkedElt.null).length
          rw [hfl, List.length_replicate]
          omega)
        (fun x hx => by
          unfold liveElts at hx
          rw [List.mem_filter, Bool.and_eq_true, Bool.not_eq_true',
            Bool.not_eq_true'] at hx
          exact ⟨hx.2.1, hx.2.2⟩)
      have hp2 : 0 < 2 ^ e2 := Nat.pos_pow_of_pos e2 (by omega)
      refine ⟨out, ?_, ⟨e2, o0, o1⟩, o2, ?_⟩
      · unfold growWith
        rw [if_neg (by omega)]
        simp only [hdb, Bool.false_eq_true, if_false]
        rw [htake]
        show (liveElts st).foldlM _ _ = some out
        exact hfold
      · rw [← o2, o1]
        rw [o1] at o3
        omega

/-- `insert` is total with three fuel levels on every table satisfying the
weak invariant: the one resize it can trigger may itself resize once during
its reinsertion fold, and every seek afterwards finds a free slot. -/
theorem insert_weak_total (f : Nat) (st : DenseHashTable) (t : MarkedElt)
    (hpow : st.buckets = [] ∨ ∃ e, e ≤ 62 ∧ st.buckets.length = 2 ^ e)
    (hset : st.set = countOccupied st.buckets) :
    ∃ st' res, DenseHashTable.insert (f + 3) st t = some (st', res) := by
  rw [insert_succ]
  by_cases hcond : st.set ≥ st.buckets.length / 2
  · rw [if_pos hcond]
    obtain ⟨out, hg, ⟨e2, he2, hl2⟩, hset2, hocc2⟩ := growWith_weak f st hpow hset
    rw [hg]
    simp only [Option.some_bind]
    obtain ⟨w, hwlt, hw⟩ := seek_total out t.key e2 hl2 (by omega) hocc2
    rw [hw]
    dsimp only
    split
    · split
      · exact ⟨_, _, rfl⟩
      · exact ⟨_, _, rfl⟩
    · exact ⟨_, _, rfl⟩
  · rw [if_neg hcond]
    push_neg at hcond
    rcases hpow with hbe | ⟨e, he, hlen⟩
    · rw [hbe] at hcond
      simp at hcond
    · have hpos : 0 < 2 ^ e := Nat.pos_pow_of_pos e (by omega)
      simp only [Option.some_bind]
      obtain ⟨w, hwlt, hw⟩ := seek_total st t.key e hlen (by omega)
        (by rw [← hset]; omega)
      rw [hw]
      dsimp only
      split
      · split
        · exact ⟨_, _, rfl⟩
        · exact ⟨_, _, rfl⟩
      · exact ⟨_, _, rfl⟩

/-- What `replace` returns: the reference stored in the slot its seek lands
on in the (possibly resized) table when that slot is occupied, and `None`
when that slot is free. -/
theorem replace_prior_spec (F : Nat) (c c1 : HashSetPrefixCache)
    (bs : List Nat) (k : Nat) (p : MarkedPtr) (res : Option MarkedPtr)
    (hk : read_u64 bs = some k) (hp : p.is_null = false)
    (h : HashSetPrefixCache.replace (F + 1) c bs p = some (c1, res)) :
    ∃ st1 w,
      (if c.tbl.set ≥ c.tbl.buckets.length / 2 then
        growWith (DenseHashTable.insert F) c.tbl else some c.tbl) = some st1 ∧
      (st1.seek k).2 = some w ∧
      res = (if (st1.buckets.getD w MarkedElt.null).is_null then none
             else some (st1.buckets.getD w MarkedElt.null).ptr) := by
  unfold HashSetPrefixCache.replace at h
  rw [hk] at h
  dsimp only at h
  rw [hp] at h
  simp only [Bool.false_eq_true, if_false] at h
  rw [insert_succ] at h
  cases hg : (if c.tbl.set ≥ c.tbl.buckets.length / 2 then
      growWith (DenseHashTable.insert F) c.tbl else some c.tbl) with
  | none =>
    rw [hg] at h
    exact absurd h (by simp)
  | some st1 =>
    rw [hg] at h
    simp only [Option.some_bind] at h
    have hkey : MarkedElt.key ⟨k, p⟩ = k := rfl
    rw [hkey] at h
    cases hw : (st1.seek k).2 with
    | none =>
      rw [hw] at h
      exact absurd h (by simp)
    | some w =>
      rw [hw] at h
      dsimp only at h
      refine ⟨st1, w, rfl, hw, ?_⟩
      by_cases hb : (st1.buckets.getD w MarkedElt.null).is_null = true
      · rw [if_pos hb] at h
        rw [if_pos hb]
        cases ht2 : (st1.seek k).1 with
        | some tix =>
          rw [ht2] at h
          dsimp only at h
          rw [Option.some_inj, Prod.mk.injEq] at h
          exact h.2.symm
        | none =>
          rw [ht2] at h
          dsimp only at h
          rw [Option.some_inj, Prod.mk.injEq] at h
          exact h.2.symm
      · rw [if_neg hb] at h
        rw [if_neg hb]
        dsimp only at h
        rw [Option.some_inj, Prod.mk.injEq] at h
        exact h.2.symm

/-- C1.  Counterexample to the claim as stated: the non-null reference
`MarkedPtr::from_leaf(!0)` (raw value `!0`) is stored by `insert`, but the
slot then satisfies `is_tombstone`, so `lookup` skips it and misses: the
round trip fails for this non-null reference.  (In a debug build the
`debug_assert!(!t.is_tombstone())` in `DenseHashTable::insert` fires
instead.) -/
theorem C1_round_trip_cex :
    (HashSetPrefixCache.insert 8 HashSetPrefixCache.new (slice8 0)
        (MarkedPtr.from_leaf MARKED_TOMBSTONE)).bind
      (fun c => HashSetPrefixCache.lookup c (slice8 0)) = some none ∧
    (MarkedPtr.from_leaf MARKED_TOMBSTONE).is_null = false := by
  constructor
  · rfl
  · rfl

/-- C2.  From the reachable churned state (`opsChurn`), `insert(p, r)` with
the prefix of key 0 and a live reference, followed by `insert(p, Null)`,
leaves `lookup(p)` returning `Some(!0)` — a hit carrying the tombstone
sentinel — instead of `None`: the second tombstone on key 0's probe chain is
reported as a key match because `seek` compares the tombstone's key field
(0) with the probed key. -/
theorem C2_delete_then_hit :
    (runInserts opsChurnDel).bind
      (fun c => HashSetPrefixCache.lookup c (slice8 0)) =
      some (some (MarkedPtr.from_leaf MARKED_TOMBSTONE)) := by
  rfl

/-- C3.  After the reachable sequence `opsWrap`, the final removal request
for key 0 finds a tombstone reported as a key match, swaps in a fresh
tombstone and decrements `len` past zero: `len` wraps to `2^64 - 1` while
`set = 2`, so the claimed invariant `len ≤ set` fails (in a debug build the
subtraction overflow panics instead). -/
theorem C3_len_underflow :
    (runInserts opsWrap).map (fun c => (c.tbl.len, c.tbl.set)) =
      some (USIZE - 1, 2) ∧ ¬(USIZE - 1 ≤ 2) := by
  constructor
  · rfl
  · decide

/-- C4.  Counterexample to totality: `lookup`, `insert` and `replace` on the
empty byte slice panic (modelled `none`), because `read_u64` evaluates
`&bs[0]`, an out-of-bounds slice index when `bs` is empty. -/
theorem C4_empty_slice_cex :
    HashSetPrefixCache.lookup HashSetPrefixCache.new [] = none ∧
    HashSetPrefixCache.insert 8 HashSetPrefixCache.new [] ⟨100⟩ = none ∧
    HashSetPrefixCache.replace 8 HashSetPrefixCache.new [] ⟨100⟩ = none := by
  exact ⟨rfl, rfl, rfl⟩

/-- C5.  On the reachable state `runInserts opsChurnDel`, the table lookup
for key 0 returns the tombstone entry itself
(`MarkedElt { prefix: 0, ptr: !0 }`): `seek` inspected the tombstone's key
field (every tombstone's key field is 0) once a first tombstone had already
been remembered, so a probe chain with two tombstones ahead of any null
slot "matches" key 0. -/
theorem C5_lookup_returns_tombstone :
    (runInserts opsChurnDel).map (fun c => c.tbl.lookup 0) =
      some (some MarkedElt.tombstone) := by
  rfl

/-- C6.  Counterexample to the claim as stated: after a single insert the
table has 1 bucket and is full (`set = buckets.len() = 1`), and `seek` for
any other key visits every slot without finding a matching-or-null terminal
slot, returning `None` although `buckets.len() > 0` — the table is not
always at least half empty, so "terminates successfully whenever
`buckets.len() > 0`" fails.  (Callers survive: `lookup`/`delete` treat the
missing terminal as a miss, and `insert` grows first.) -/
theorem C6_probe_cex :
    (HashSetPrefixCache.insert 8 HashSetPrefixCache.new (slice8 1) ⟨100⟩).map
      (fun c => ((c.tbl.seek 2).2, c.tbl.buckets.length, c.tbl.set)) =
      some (none, 1, 1) := by
  rfl

/-- C9.  Counterexample to the claim as stated: on the empty byte slice the
key derivation does not produce the zero-padded key 0 — `read_u64` panics
(out-of-bounds index `&bs[0]`), modelled `none`. -/
theorem C9_key_derivation_cex : read_u64 [] = none := by
  rfl

/-- C1 (amended).  Round trip: for every cache state, prefix slice and
reference `r` that is non-null and whose raw value is not the tombstone
sentinel `!0`, if `insert(p, r)` completes then `lookup(p)` returns
`Some(r)`.  Prefixes with the same 8-byte truncation share the derived key
(see the C9 theorem), hence address the same entry. -/
theorem C1_round_trip (F : Nat) (c c' : HashSetPrefixCache) (bs : List Nat)
    (r : MarkedPtr) (hr0 : r.raw ≠ 0) (hrs : r.raw ≠ MARKED_TOMBSTONE)
    (h : HashSetPrefixCache.insert F c bs r = some c') :
    HashSetPrefixCache.lookup c' bs = some (some r) :=
  cache_insert_lookup F c c' bs r hr0 hrs h

/-- Witness for `C1_round_trip` at a concrete input: a fresh cache, the
8-byte prefix of key 7 and the reference with raw value 100. -/
theorem C1_round_trip_witness :
    (⟨100⟩ : MarkedPtr).raw ≠ 0 ∧ (⟨100⟩ : MarkedPtr).raw ≠ MARKED_TOMBSTONE ∧
    HashSetPrefixCache.lookup
      ((HashSetPrefixCache.insert 8 HashSetPrefixCache.new (slice8 7) ⟨100⟩).getD
        HashSetPrefixCache.new) (slice8 7) = some (some ⟨100⟩) :=
  ⟨by decide, by decide,
    C1_round_trip 8 HashSetPrefixCache.new _ (slice8 7) ⟨100⟩ (by decide)
      (by decide) rfl⟩

/-- C7.  Counterexample to the claim as stated, in both directions: the
non-null sentinel reference `MarkedPtr::from_leaf(!0)` is stored as a
pseudo-tombstone, the second `replace` resizes and the rebuild discards it,
so `None` is returned instead of `Some(r1)`; and on the reachable churned
state with no live entry for key 0, a `replace` of key 0's prefix lands on
a tombstone through the seek bug and returns `Some(!0)` although no live
value was stored — the claim's "returns the previously stored reference
when the slot held a live value, and None otherwise" fails. -/
theorem C7_replace_prior_cex :
    ((HashSetPrefixCache.replace 8 HashSetPrefixCache.new (slice8 0)
        (MarkedPtr.from_leaf MARKED_TOMBSTONE)).bind (fun x =>
      HashSetPrefixCache.replace 8 x.1 (slice8 0) ⟨104⟩)).map Prod.snd =
      some none ∧
    (MarkedPtr.from_leaf MARKED_TOMBSTONE).is_null = false ∧
    ((runInserts opsChurnDel).bind (fun c =>
      HashSetPrefixCache.replace 8 c (slice8 0) ⟨120⟩)).map Prod.snd =
      some (some (MarkedPtr.from_leaf MARKED_TOMBSTONE)) ∧
    (runInserts opsChurnDel).map (fun c =>
      (liveElts c.tbl).countP (fun x => x.key == 0)) = some 0 :=
  ⟨rfl, rfl, rfl, rfl⟩

/-- C7 (amended).  Replace: (i) `replace` performs exactly the state change
of `insert` for every input; (ii) after a `replace(p, r1)` stores `r1`
(non-null, non-sentinel raw value), a second `replace(p, r2)` with non-null
`r2` on a table that is not about to resize returns `Some(r1)`; (iii) from a
fresh cache, for caller-supplied (non-null, non-sentinel) references `r1`
and `r2`, `replace(p, r1)` followed by `replace(p, r2)` returns `Some(r1)`
from the second call, the resize in between included; (iv) in general,
`replace` returns the reference stored in the slot its seek lands on in the
(possibly resized) table when that slot is occupied — which, through the
seek bug, can be a tombstone rather than a live value — and `None` when
that slot is free.  See `C7_replace_prior_cex` for both failure modes of
the claim as stated. -/
theorem C7_replace_prior :
    (∀ (F : Nat) (c : HashSetPrefixCache) (bs : List Nat) (p : MarkedPtr),
        (HashSetPrefixCache.replace F c bs p).map Prod.fst =
          HashSetPrefixCache.insert F c bs p) ∧
    (∀ (F G : Nat) (c c1 : HashSetPrefixCache) (bs : List Nat)
        (r1 r2 : MarkedPtr) (o1 : Option MarkedPtr),
        r1.raw ≠ 0 → r1.raw ≠ MARKED_TOMBSTONE → r2.raw ≠ 0 →
        HashSetPrefixCache.replace F c bs r1 = some (c1, o1) →
        c1.tbl.set < c1.tbl.buckets.length / 2 →
        ∃ c2, HashSetPrefixCache.replace (G + 1) c1 bs r2 =
          some (c2, some r1)) ∧
    (∀ (f : Nat) (bs : List Nat) (r1 r2 : MarkedPtr), bs ≠ [] →
        GoodPtr r1 → GoodPtr r2 →
        ∃ c1 c2,
          HashSetPrefixCache.replace (f + 2) HashSetPrefixCache.new bs r1 =
            some (c1, none) ∧
          HashSetPrefixCache.replace (f + 2) c1 bs r2 = some (c2, some r1)) ∧
    (∀ (F : Nat) (c c1 : HashSetPrefixCache) (bs : List Nat) (k : Nat)
        (p : MarkedPtr) (res : Option MarkedPtr),
        read_u64 bs = some k → p.is_null = false →
        HashSetPrefixCache.replace (F + 1) c bs p = some (c1, res) →
        ∃ st1 w,
          (if c.tbl.set ≥ c.tbl.buckets.length / 2 then
            growWith (DenseHashTable.insert F) c.tbl else some c.tbl) =
              some st1 ∧
          (st1.seek k).2 = some w ∧
          res = (if (st1.buckets.getD w MarkedElt.null).is_null then none
                 else some (st1.buckets.getD w MarkedElt.null).ptr)) := by
  refine ⟨replace_same_effect, fun F G c c1 bs r1 r2 o1 h1 h2 h3 h4 h5 =>
    replace_returns_prior F G c c1 bs r1 r2 o1 h1 h2 h3 h4 h5, ?_,
    fun F c c1 bs k p res hk hp h =>
      replace_prior_spec F c c1 bs k p res hk hp h⟩
  intro f bs r1 r2 hbs h1 h2
  have hk := read_u64_spec bs hbs
  obtain ⟨c2, hc2⟩ := replace_singleton_prior f bs (specKey bs) r1 r2 hk h1 h2
  exact ⟨⟨⟨[⟨specKey bs, r1⟩], 1, 1⟩⟩, c2,
    replace_new f bs (specKey bs) r1 hk
      (is_null_false_of_raw r1 (by have := h1.1; omega)), hc2⟩

/-- Witness for `C7_replace_prior` at concrete inputs: part (i) on a fresh
cache; part (ii) from the 16-bucket, 5-entry state `c7Start`; part (iii)
replacing the prefix of key 7 first with raw 200, then with raw 202 — the
second call returns `Some(200)` across the resize to two buckets; part (iv)
on a first `replace` from a fresh cache, whose landed slot is free. -/
theorem C7_replace_prior_witness :
    ((HashSetPrefixCache.replace 8 HashSetPrefixCache.new (slice8 5) ⟨100⟩).map
        Prod.fst =
      HashSetPrefixCache.insert 8 HashSetPrefixCache.new (slice8 5) ⟨100⟩) ∧
    (∃ c2, HashSetPrefixCache.replace 9 c7Mid.1 (slice8 6) ⟨104⟩ =
      some (c2, some ⟨102⟩)) ∧
    (∃ c1 c2,
        HashSetPrefixCache.replace 8 HashSetPrefixCache.new (slice8 7) ⟨200⟩ =
          some (c1, none) ∧
        HashSetPrefixCache.replace 8 c1 (slice8 7) ⟨202⟩ =
          some (c2, some ⟨200⟩)) ∧
    (∃ st1 w,
        (if HashSetPrefixCache.new.tbl.set ≥
            HashSetPrefixCache.new.tbl.buckets.length / 2 then
          growWith (DenseHashTable.insert 7) HashSetPrefixCache.new.tbl
        else some HashSetPrefixCache.new.tbl) = some st1 ∧
        (st1.seek (specKey (slice8 3))).2 = some w ∧
        ((HashSetPrefixCache.replace 8 HashSetPrefixCache.new (slice8 3)
            ⟨100⟩).getD (HashSetPrefixCache.new, none)).2 =
          (if (st1.buckets.getD w MarkedElt.null).is_null then none
           else some (st1.buckets.getD w MarkedElt.null).ptr)) := by
  refine ⟨C7_replace_prior.1 8 HashSetPrefixCache.new (slice8 5) ⟨100⟩, ?_, ?_, ?_⟩
  · exact C7_replace_prior.2.1 8 8 c7Start c7Mid.1 (slice8 6) ⟨102⟩ ⟨104⟩ c7Mid.2
      (by decide) (by decide) (by decide) (by rfl) (by decide)
  · exact C7_replace_prior.2.2.1 6 (slice8 7) ⟨200⟩ ⟨202⟩ (by decide)
      ⟨by decide, by decide⟩ ⟨by decide, by decide⟩
  · have h : HashSetPrefixCache.replace 8 HashSetPrefixCache.new (slice8 3)
        ⟨100⟩ = some
          (((HashSetPrefixCache.replace 8 HashSetPrefixCache.new (slice8 3)
            ⟨100⟩).getD (HashSetPrefixCache.new, none)).1,
           ((HashSetPrefixCache.replace 8 HashSetPrefixCache.new (slice8 3)
            ⟨100⟩).getD (HashSetPrefixCache.new, none)).2) := rfl
    exact C7_replace_prior.2.2.2 7 HashSetPrefixCache.new _ (slice8 3) (specKey (slice8 3))
      ⟨100⟩ _ (by rfl) (by decide) h

/-- C4 (amended).  Totality: the `NullBuckets` operations always succeed
and report a miss as `None`; `HashSetPrefixCache::lookup` is total on every
nonempty byte slice (of any length, truncation included); `insert` and
`replace` are total on every nonempty byte slice and every reference
whenever the bucket count is empty or a power of two within the `Vec` size
bound and `set` counts the occupied slots — an invariant that holds at
every reachable state, the corrupted-`len`, tombstone-churned and
duplicate-live-key states included.  Fuel `f + 3` covers the resize a call
can trigger and the one further resize the reinsertion fold can trigger.
The claim's "every input byte slice" fails on the empty slice, where
`read_u64` panics: see `C4_empty_slice_cex`. -/
theorem C4_totality :
    (∀ (nb : NullBuckets) (bs : List Nat) (p : MarkedPtr),
        NullBuckets.lookup nb bs = none ∧ NullBuckets.insert nb bs p = nb ∧
        NullBuckets.replace nb bs p = (nb, none)) ∧
    (∀ (c : HashSetPrefixCache) (bs : List Nat), bs ≠ [] →
        ∃ v, HashSetPrefixCache.lookup c bs = some v) ∧
    (∀ (f : Nat) (c : HashSetPrefixCache) (bs : List Nat) (p : MarkedPtr),
        bs ≠ [] →
        (c.tbl.buckets = [] ∨ ∃ e, e ≤ 62 ∧ c.tbl.buckets.length = 2 ^ e) →
        c.tbl.set = countOccupied c.tbl.buckets →
        (∃ c', HashSetPrefixCache.insert (f + 3) c bs p = some c') ∧
        (∃ r, HashSetPrefixCache.replace (f + 3) c bs p = some r)) := by
  refine ⟨fun nb bs p => ⟨rfl, rfl, rfl⟩, ?_, ?_⟩
  · intro c bs h
    unfold HashSetPrefixCache.lookup
    rw [read_u64_spec bs h]
    exact ⟨_, rfl⟩
  · intro f c bs p h hpow hset
    have hk := read_u64_spec bs h
    constructor
    · unfold HashSetPrefixCache.insert
      rw [hk]
      dsimp only
      by_cases hp : p.is_null = true
      · rw [if_pos hp]
        exact ⟨_, rfl⟩
      · rw [if_neg hp]
        obtain ⟨st', res, hins⟩ :=
          insert_weak_total f c.tbl ⟨specKey bs, p⟩ hpow hset
        rw [hins]
        exact ⟨_, rfl⟩
    · unfold HashSetPrefixCache.replace
      rw [hk]
      dsimp only
      by_cases hp : p.is_null = true
      · rw [if_pos hp]
        exact ⟨_, rfl⟩
      · rw [if_neg hp]
        obtain ⟨st', res, hins⟩ :=
          insert_weak_total f c.tbl ⟨specKey bs, p⟩ hpow hset
        rw [hins]
        exact ⟨_, rfl⟩

/-- Witness for `C4_totality` at concrete inputs: the corrupted reachable
state of `opsChurnDel` (whose `len` is 2 while 3 entries are live), a fresh
key and the reference with raw value 140. -/
theorem C4_totality_witness :
    (NullBuckets.lookup NullBuckets.new (slice8 1) = none ∧
     NullBuckets.insert NullBuckets.new (slice8 1) ⟨100⟩ = NullBuckets.new ∧
     NullBuckets.replace NullBuckets.new (slice8 1) ⟨100⟩ =
       (NullBuckets.new, none)) ∧
    (∃ v, HashSetPrefixCache.lookup
      ((runInserts opsChurnDel).getD HashSetPrefixCache.new) (slice8 9) =
        some v) ∧
    (∃ c', HashSetPrefixCache.insert 8
      ((runInserts opsChurnDel).getD HashSetPrefixCache.new) (slice8 9)
        ⟨140⟩ = some c') ∧
    (∃ r, HashSetPrefixCache.replace 8
      ((runInserts opsChurnDel).getD HashSetPrefixCache.new) (slice8 9)
        ⟨140⟩ = some r) :=
  ⟨C4_totality.1 NullBuckets.new (slice8 1) ⟨100⟩,
   C4_totality.2.1 ((runInserts opsChurnDel).getD HashSetPrefixCache.new) (slice8 9)
     (by decide),
   (C4_totality.2.2 5 ((runInserts opsChurnDel).getD HashSetPrefixCache.new)
      (slice8 9) ⟨140⟩ (by decide) (Or.inr ⟨4, by omega, by rfl⟩)
      (by rfl)).1,
   (C4_totality.2.2 5 ((runInserts opsChurnDel).getD HashSetPrefixCache.new)
      (slice8 9) ⟨140⟩ (by decide) (Or.inr ⟨4, by omega, by rfl⟩)
      (by rfl)).2⟩

/-- C6 (amended).  Probing: the probe at attempt `i` is
`(h + (i + i^2)/2) mod 2^64` masked by `buckets.len() - 1`, equal to
`(h + (i + i^2)/2) mod buckets.len()` on a power-of-two table; the first
`buckets.len()` attempts visit every slot; whenever at least one slot is
free, `seek` terminates within its `buckets.len()`-probe walk at a
matching-or-null slot; and the unwrap of the terminal slot inside
`DenseHashTable::insert` never fails on a reachable table, because `insert`
resizes before seeking and the resized table always keeps a free slot.
Only the claim's unconditional seek success for `buckets.len() > 0` fails,
on the reachable full tables: see `C6_probe_cex`. -/
theorem C6_probe_termination :
    (∀ hash i, next_probe hash i = (hash + (i + i * i) / 2) % USIZE) ∧
    (∀ hash e t, e ≤ 64 →
        probeSlot hash (2 ^ e) t = (hash + (t + t * t) / 2) % 2 ^ e) ∧
    (∀ hash e j, e ≤ 64 → j < 2 ^ e →
        ∃ t, t < 2 ^ e ∧ probeSlot hash (2 ^ e) t = j) ∧
    (∀ (st : DenseHashTable) (k e : Nat),
        st.buckets.length = 2 ^ e → e ≤ 64 →
        countOccupied st.buckets < st.buckets.length →
        ∃ w, w < st.buckets.length ∧ (st.seek k).2 = some w ∧
          ((st.buckets.getD w MarkedElt.null).is_null = true ∨
           (st.buckets.getD w MarkedElt.null).key = k)) ∧
    (∀ (f : Nat) (st : DenseHashTable) (t : MarkedElt),
        (st.buckets = [] ∨ ∃ e, e ≤ 62 ∧ st.buckets.length = 2 ^ e) →
        st.set = countOccupied st.buckets →
        ∃ st' res, DenseHashTable.insert (f + 3) st t = some (st', res)) := by
  refine ⟨fun _ _ => rfl, fun hash e t he => probeSlot_eq_mod hash e t he,
    probeSlot_surj, ?_, fun f st t hpow hset => insert_weak_total f st t hpow hset⟩
  intro st k e hlen he hocc
  obtain ⟨w, hwlt, hw⟩ := seek_total st k e hlen he hocc
  refine ⟨w, hwlt, hw, ?_⟩
  exact seekAux_term_spec st.buckets k (fnvHash64 k) st.buckets.length
    st.buckets.length 0 none w (by rw [seek_def] at hw; exact hw)

/-- Witness for `C6_probe_termination` at concrete inputs: hash 5 on a
16-slot table, a seek for the absent key 9 in the 16-bucket, 5-entry
reachable state `c7Start`, and an insert into the completely full
one-bucket reachable table `c10State` (full like the `C6_probe_cex` state),
which succeeds by growing first. -/
theorem C6_probe_termination_witness :
    probeSlot 5 (2 ^ 4) 3 = (5 + (3 + 3 * 3) / 2) % 2 ^ 4 ∧
    (∃ t, t < 2 ^ 4 ∧ probeSlot 5 (2 ^ 4) t = 2) ∧
    (∃ w, w < c7Start.tbl.buckets.length ∧ (c7Start.tbl.seek 9).2 = some w ∧
      ((c7Start.tbl.buckets.getD w MarkedElt.null).is_null = true ∨
       (c7Start.tbl.buckets.getD w MarkedElt.null).key = 9)) ∧
    (∃ st' res, DenseHashTable.insert 8 c10State.tbl ⟨0, ⟨120⟩⟩ =
      some (st', res)) :=
  ⟨C6_probe_termination.2.1 5 4 3 (by omega),
   C6_probe_termination.2.2.1 5 4 2 (by omega) (by omega),
   C6_probe_termination.2.2.2.1 c7Start.tbl 9 4 (by rfl) (by omega) (by decide),
   C6_probe_termination.2.2.2.2 5 c10State.tbl ⟨0, ⟨120⟩⟩ (Or.inr ⟨0, by omega, by rfl⟩)
     (by rfl)⟩

/-- C8.  Counterexample to the claim as stated: on the reachable state of
`opsDup` both `MarkedElt` entries with key 0 (references 110 and 130) are
live and the resize trigger `set >= buckets.len()/2` holds, but after
`grow` the reinsertion of the second copy matches the first and overwrites
it: the live key/reference pair `(0, 130)` is gone.  Release builds discard
the reinsert's `Err` and silently drop the pair; debug builds panic on the
`debug_assert!(_res.is_ok())` in `grow`. -/
theorem C8_grow_compact_cex :
    (runInserts opsDup).map (fun c =>
      (decide ((⟨0, ⟨110⟩⟩ : MarkedElt) ∈ liveElts c.tbl),
       decide ((⟨0, ⟨130⟩⟩ : MarkedElt) ∈ liveElts c.tbl),
       decide (c.tbl.set ≥ c.tbl.buckets.length / 2))) =
      some (true, true, true) ∧
    ((runInserts opsDup).bind (fun c => DenseHashTable.grow 8 c.tbl)).map
      (fun g => decide ((⟨0, ⟨130⟩⟩ : MarkedElt) ∈ liveElts g)) =
      some false := ⟨rfl, rfl⟩

/-- C8 (amended).  Grow/compact policy, for a well-formed table with
distinct live keys at the `set >= buckets.len()/2` trigger: `grow`
succeeds; an empty table gets exactly one bucket; otherwise the bucket
array doubles when `buckets.len() < 32` or `set - len` (wrapping `i64`
arithmetic) is below a quarter of capacity, and keeps its capacity
otherwise; afterwards the table is tombstone-free with `set = len`, and the
live key/reference pairs are preserved up to permutation.  Preservation
genuinely needs distinct live keys: on the reachable duplicate-key states
the rebuild collapses the copies and a live pair is lost, see
`C8_grow_compact_cex`. -/
theorem C8_grow_compact (f : Nat) (st : DenseHashTable)
    (hinv : TableInv st) (hdk : LiveKeysDistinct st)
    (_htrig : st.set ≥ st.buckets.length / 2) :
    ∃ out, DenseHashTable.grow (f + 2) st = some out ∧
      (st.buckets.length = 0 → out.buckets.length = 1) ∧
      (st.buckets.length ≠ 0 →
        ((st.buckets.length < 32 ∨
            i64Wrap (usizeAsI64 st.set - usizeAsI64 st.len) <
              usizeAsI64 st.buckets.length / 4) →
          out.buckets.length = 2 * st.buckets.length) ∧
        (¬(st.buckets.length < 32 ∨
            i64Wrap (usizeAsI64 st.set - usizeAsI64 st.len) <
              usizeAsI64 st.buckets.length / 4) →
          out.buckets.length = st.buckets.length)) ∧
      (∀ x ∈ out.buckets, x.is_tombstone = false) ∧
      out.set = out.len ∧
      List.Perm (liveElts out) (liveElts st) := by
  obtain ⟨out, hg, htf, _, hls, _, _, _, _, hperm, _, hemp, hbr⟩ :=
    grow_clean f st hinv hdk
  refine ⟨out, hg, hemp, ?_, htf, hls.symm, hperm⟩
  intro hne
  exact ⟨(hbr hne).1, fun hc => ((hbr hne).2 hc).1⟩

/-- Witness for `C8_grow_compact` on the fresh empty table: the first
resize allocates exactly one bucket. -/
theorem C8_grow_compact_witness :
    ∃ out, DenseHashTable.grow 8 DenseHashTable.new = some out ∧
      (DenseHashTable.new.buckets.length = 0 → out.buckets.length = 1) ∧
      (DenseHashTable.new.buckets.length ≠ 0 →
        ((DenseHashTable.new.buckets.length < 32 ∨
            i64Wrap (usizeAsI64 DenseHashTable.new.set -
                usizeAsI64 DenseHashTable.new.len) <
              usizeAsI64 DenseHashTable.new.buckets.length / 4) →
          out.buckets.length = 2 * DenseHashTable.new.buckets.length) ∧
        (¬(DenseHashTable.new.buckets.length < 32 ∨
            i64Wrap (usizeAsI64 DenseHashTable.new.set -
                usizeAsI64 DenseHashTable.new.len) <
              usizeAsI64 DenseHashTable.new.buckets.length / 4) →
          out.buckets.length = DenseHashTable.new.buckets.length)) ∧
      (∀ x ∈ out.buckets, x.is_tombstone = false) ∧
      out.set = out.len ∧
      List.Perm (liveElts out) (liveElts DenseHashTable.new) :=
  C8_grow_compact 6 DenseHashTable.new (Or.inl ⟨rfl, rfl, rfl⟩)
    List.Pairwise.nil (Nat.le_refl 0)

/-- C9 (amended).  Key derivation: on every nonempty slice, `read_u64`
returns the big-endian value of the first `min(8, len)` bytes with missing
trailing bytes treated as zero (`specKey`), and any two nonempty slices
that agree on their first 8 bytes derive the same key, so they address the
same cache entry.  The claim's "every input byte slice" fails on the empty
slice, where `read_u64` panics: see `C9_key_derivation_cex`. -/
theorem C9_key_derivation (bs bs2 : List Nat) (h : bs ≠ []) :
    read_u64 bs = some (specKey bs) ∧
    (bs.take 8 = bs2.take 8 → read_u64 bs = read_u64 bs2) := by
  refine ⟨read_u64_spec bs h, fun heq => ?_⟩
  have h2 : bs2 ≠ [] := by
    intro hc
    rw [hc] at heq
    cases bs with
    | nil => exact h rfl
    | cons a l => simp at heq
  rw [read_u64_spec bs h, read_u64_spec bs2 h2]
  have hl : min bs.length 8 = min bs2.length 8 := by
    have hlen := congrArg List.length heq
    simp only [List.length_take] at hlen
    omega
  unfold specKey
  rw [heq, hl]

/-- Witness for `C9_key_derivation` on two 9- and 10-byte slices agreeing
on their first 8 bytes. -/
theorem C9_key_derivation_witness :
    read_u64 [0, 0, 0, 0, 0, 0, 0, 1, 5] =
      some (specKey [0, 0, 0, 0, 0, 0, 0, 1, 5]) ∧
    read_u64 [0, 0, 0, 0, 0, 0, 0, 1, 5] =
      read_u64 [0, 0, 0, 0, 0, 0, 0, 1, 6] :=
  ⟨(C9_key_derivation [0, 0, 0, 0, 0, 0, 0, 1, 5] [0, 0, 0, 0, 0, 0, 0, 1, 6]
      (by decide)).1,
   (C9_key_derivation [0, 0, 0, 0, 0, 0, 0, 1, 5] [0, 0, 0, 0, 0, 0, 0, 1, 6]
      (by decide)).2 (by decide)⟩

/-- C10.  Sentinel discipline: under the caller obligation that every
supplied reference is null (a removal request) or a real pointer (non-null
and not raw-equal to the reserved `!0`), every bucket of every reachable
table state is in exactly one of the three states null, tombstone, or live,
and no live entry's reference raw-equals the sentinel `!0`. -/
theorem C10_sentinel_discipline (c : HashSetPrefixCache) (h : Reach c) :
    ∀ x ∈ c.tbl.buckets,
      (x.is_null = true ∧ x.is_tombstone = false) ∨
      (x.is_null = false ∧ x.is_tombstone = true) ∨
      (x.is_null = false ∧ x.is_tombstone = false ∧ GoodPtr x.ptr ∧
        x.ptr.raw ≠ MARKED_TOMBSTONE) := by
  intro x hx
  rcases reach_ok c h x hx with h0 | h0 | h0
  · left
    rw [h0]
    exact ⟨rfl, rfl⟩
  · right; left
    rw [h0]
    exact ⟨by decide, by decide⟩
  · right; right
    have h1 : x.ptr.raw ≠ 0 := by have := h0.1; omega
    have h2 : x.ptr.raw ≠ MARKED_TOMBSTONE := by
      have := h0.2
      unfold MARKED_TOMBSTONE USIZE at *
      omega
    refine ⟨is_null_false_of_raw x.ptr h1, ?_, h0, h2⟩
    show (x.ptr.raw == MARKED_TOMBSTONE) = false
    exact beq_eq_false_iff_ne.mpr h2

/-- Witness for `C10_sentinel_discipline` at a concrete input: the single
bucket of the reachable one-entry cache `c10State` is a live entry holding
a good, non-sentinel reference. -/
theorem C10_sentinel_discipline_witness :
    ((c10State.tbl.buckets.getD 0 MarkedElt.null).is_null = true ∧
     (c10State.tbl.buckets.getD 0 MarkedElt.null).is_tombstone = false) ∨
    ((c10State.tbl.buckets.getD 0 MarkedElt.null).is_null = false ∧
     (c10State.tbl.buckets.getD 0 MarkedElt.null).is_tombstone = true) ∨
    ((c10State.tbl.buckets.getD 0 MarkedElt.null).is_null = false ∧
     (c10State.tbl.buckets.getD 0 MarkedElt.null).is_tombstone = false ∧
     GoodPtr (c10State.tbl.buckets.getD 0 MarkedElt.null).ptr ∧
     (c10State.tbl.buckets.getD 0 MarkedElt.null).ptr.raw ≠
       MARKED_TOMBSTONE) := by
  have hins : HashSetPrefixCache.insert 8 HashSetPrefixCache.new (slice8 7)
      ⟨100⟩ = some c10State := rfl
  exact C10_sentinel_discipline c10State
    (Reach.insert Reach.new (Or.inr ⟨by decide, by decide⟩) hins)
    (c10State.tbl.buckets.getD 0 MarkedElt.null) (by decide)

end Art
